import Mathlib

/-!
# myshell: tokenizer, variable expansion, conditionals, orchestration, history

A shallow embedding of `shell.c`, `execute.c` and `main.c`.

A C string is represented by the list of its characters before the
terminating NUL.  A NULL pointer result is `none`.  Fixed-size buffers are
represented by the text they hold; every copy into one is written with the
length bound the source uses.
-/

namespace MyShell

/-- The text of a NUL-terminated C string. -/
abbrev CStr := List Char

/-! ## Constants of `shell.h` -/

def MAX_LEN : Nat := 1024
def MAXARGS : Nat := 100
def ARGLEN : Nat := 256
def HISTORY_SIZE : Nat := 200
def MAX_VARS : Nat := 200

/-- The call `strncpy(dst, src, n)` into a buffer whose byte `n` is NUL (zero-initialised or
explicitly terminated afterwards): the buffer then holds the first `n` characters of `src`. -/
def strncpy (src : CStr) (n : Nat) : CStr := src.take n

/-! ## Session variables (`shell.c`, `set_var`, `get_var`) -/

/-- The arrays `var_names` / `var_values`, entries `0 .. var_count - 1`, in order. -/
abbrev VarStore := List (CStr × CStr)

/-- The process environment as seen through `getenv`. -/
abbrev Env := CStr → Option CStr

/-- The first loop of `set_var`: overwrite the value of the first entry named `name`;
`none` when the loop ends without a match. -/
def set_var_loop (name value : CStr) : VarStore → Option VarStore
  | [] => none
  | (n, v) :: rest =>
    if n = name then some ((n, strncpy value (ARGLEN - 1)) :: rest)
    else (set_var_loop name value rest).map (fun r => (n, v) :: r)

/-- The function `set_var(name, value)`, both arguments non-NULL. -/
def set_var (st : VarStore) (name value : CStr) : VarStore :=
  match set_var_loop name value st with
  | some st1 => st1
  | none =>
    if st.length < MAX_VARS then
      st ++ [(strncpy name (ARGLEN - 1), strncpy value (ARGLEN - 1))]
    else st

/-- The function `get_var(name)`: first matching session entry, else `getenv`. -/
def get_var (env : Env) : VarStore → CStr → Option CStr
  | [], name => env name
  | (n, v) :: rest, name => if n = name then some v else get_var env rest name

/-! ## Expansion of one token (`expand_token_inplace`) -/

/-- The test `*p == '_' || isalnum((unsigned char)*p)` (C locale). -/
def is_name_char (c : Char) : Bool := c = '_' || c.isAlphanum

/-- A name-collecting loop `while (ok(*p) && ni < ARGLEN - 1) name[ni++] = *p++;` with
`room = ARGLEN - 1 - ni`: the collected characters and the rest of the text. -/
def collect_name (ok : Char → Bool) : Nat → CStr → CStr × CStr
  | 0, p => ([], p)
  | _ + 1, [] => ([], [])
  | room + 1, c :: p =>
    if ok c then ((c :: (collect_name ok room p).1), (collect_name ok room p).2)
    else ([], c :: p)

/-- The main loop of `expand_token_inplace`; `p` is the unread text, `buf` the first `bi`
bytes of `buf`.  Every iteration reads at least one character, so `fuel = strlen(p)`
iterations are never exceeded (see `expand_loop_fuel`). -/
def expand_loop (st : VarStore) (env : Env) : Nat → CStr → CStr → CStr
  | 0, _, buf => buf
  | fuel + 1, p, buf =>
    match p with
    | [] => buf
    | c :: p1 =>
      if buf.length < ARGLEN - 1 then
        if c = '$' then
          match p1 with
          | [] => buf ++ ['$']
          | c1 :: p2 =>
            let nr : CStr × CStr :=
              if c1 = Char.ofNat 123 then
                let r := collect_name (fun x => x != Char.ofNat 125) (ARGLEN - 1) p2
                match r.2 with
                | d :: q => if d = Char.ofNat 125 then (r.1, q) else r
                | [] => r
              else collect_name is_name_char (ARGLEN - 1) (c1 :: p2)
            match get_var env st nr.1 with
            | some val => expand_loop st env fuel nr.2 (buf ++ val.take (ARGLEN - 1 - buf.length))
            | none => expand_loop st env fuel nr.2 buf
        else expand_loop st env fuel p1 (buf ++ [c])
      else buf

/-- The function `expand_token_inplace(dest, src)`: the text left in `dest`. -/
def expand_token_inplace (st : VarStore) (env : Env) (src : CStr) : CStr :=
  strncpy (expand_loop st env src.length src []) (ARGLEN - 1)

/-! ## Tokenizer (`tokenize`) -/

/-- Membership in the delimiter set `" \t"` handed to `strtok`. -/
def is_delim (c : Char) : Bool := c = ' ' || c = '\t'

/-- One `strtok` call on the unread text: `none` when only delimiters remain, otherwise the
token and the text after the delimiter that ended it. -/
def strtok (s : CStr) : Option (CStr × CStr) :=
  match s.dropWhile is_delim with
  | [] => none
  | c :: r =>
    some ((c :: r).takeWhile (fun x => !is_delim x),
          ((c :: r).dropWhile (fun x => !is_delim x)).drop 1)

/-- The loop `while (token != NULL && idx < MAXARGS)` with `room = MAXARGS - idx`. -/
def tokenize_loop (st : VarStore) (env : Env) : Nat → CStr → List CStr
  | 0, _ => []
  | room + 1, s =>
    match strtok s with
    | none => []
    | some (tok, rest) => expand_token_inplace st env tok :: tokenize_loop st env room rest

/-- The function `tokenize(cmdline)`: `none` is the NULL result (`idx == 0`). -/
def tokenize (st : VarStore) (env : Env) (cmdline : CStr) : Option (List CStr) :=
  match tokenize_loop st env MAXARGS (strncpy cmdline (MAX_LEN - 1)) with
  | [] => none
  | t :: ts => some (t :: ts)

/-! ## Internal history (`shell.c`) -/

/-- The rows `internal_history[0 .. internal_history_count - 1]`. -/
abbrev History := List CStr

/-- The function `internal_history_add(cmdline)`, `cmdline` non-NULL. -/
def internal_history_add (h : History) (cmdline : CStr) : History :=
  if cmdline = [] then h
  else if h.length < HISTORY_SIZE then h ++ [strncpy cmdline (MAX_LEN - 1)]
  else ((h.take HISTORY_SIZE).drop 1).map (fun row => strncpy row MAX_LEN)
        ++ [strncpy cmdline (MAX_LEN - 1)]

/-- The function `internal_history_get(index)`: `none` is the NULL result. -/
def internal_history_get (h : History) (index : Int) : Option CStr :=
  if index < 1 ∨ index > (h.length : Int) then none
  else h.get? (index - 1).toNat

/-! ## Conditional lines (`execute.c`, `trim_whitespace`, `handle_if_else`) -/

/-- The characters `trim_whitespace` strips. -/
def is_trim_char (c : Char) : Bool := c = ' ' || c = '\t' || c = '\n'

/-- The function `trim_whitespace(s)`: left trim, then right trim. -/
def trim_whitespace (s : CStr) : CStr :=
  (s.dropWhile is_trim_char).rdropWhile is_trim_char

/-- The call `strstr(haystack, needle)`: offset of the first occurrence, `none` for NULL. -/
def strstr : CStr → CStr → Option Nat
  | [], needle => if needle = [] then some 0 else none
  | c :: hay, needle =>
    if needle.isPrefixOf (c :: hay) then some 0
    else (strstr hay needle).map (fun i => i + 1)

/-- The clamp `if (len >= (int)sizeof(buf)) len = (int)sizeof(buf) - 1;`. -/
def clamp_len (len : Int) : Int :=
  if len ≥ (MAX_LEN : Int) then (MAX_LEN : Int) - 1 else len

/-- What `handle_if_else` has computed when it starts copying: the text `p` after the leading
spaces, the marker offsets in `p`, and the clamped copy lengths. -/
structure IfScan where
  p : CStr
  then_ptr : Nat
  fi_ptr : Nat
  else_ptr : Option Nat
  cond_len : Int
  then_len : Int
  else_len : Option Int

/-- The scanning part of `handle_if_else` (lines 25-61 without the copies); `none` when it
returns 0 before computing any length. -/
def if_scan (cmdline : CStr) : Option IfScan :=
  let p := cmdline.dropWhile (fun c => c = ' ')
  if p.take 3 ≠ "if ".toList then none
  else
    match strstr p " then ".toList, strstr p " fi".toList with
    | some then_ptr, some fi_ptr =>
      let cond_len := clamp_len ((then_ptr : Int) - 3)
      match strstr p " else ".toList with
      | some else_ptr =>
        if else_ptr < fi_ptr then
          some ⟨p, then_ptr, fi_ptr, some else_ptr, cond_len,
            clamp_len ((else_ptr : Int) - ((then_ptr : Int) + 6)),
            some (clamp_len ((fi_ptr : Int) - ((else_ptr : Int) + 6)))⟩
        else
          some ⟨p, then_ptr, fi_ptr, some else_ptr, cond_len,
            clamp_len ((fi_ptr : Int) - ((then_ptr : Int) + 6)), none⟩
      | none =>
        some ⟨p, then_ptr, fi_ptr, none, cond_len,
          clamp_len ((fi_ptr : Int) - ((then_ptr : Int) + 6)), none⟩
    | _, _ => none

/-- The pair `strncpy(buf, src, len); buf[len] = 0;` with an `int` length into a zeroed
`MAX_LEN` buffer.  A negative `len` becomes a huge `size_t` and writes `buf[len]` before the
buffer: the copy leaves the buffers, which is `none`. -/
def copy_field (src : CStr) (len : Int) : Option CStr :=
  if len < 0 then none else some (strncpy src len.toNat)

/-- How the condition process ended, as seen by `fork` and `waitpid`. -/
inductive ChildEnd where
  | fork_failed : ChildEnd
  | exited (code : Nat) : ChildEnd
  | killed (signal : Nat) : ChildEnd
deriving DecidableEq, Repr

/-- The test `WIFEXITED(wstatus) && WEXITSTATUS(wstatus) == 0`. -/
def cond_ok : ChildEnd → Bool
  | ChildEnd.exited 0 => true
  | _ => false

/-- What one call of `handle_if_else` did. -/
inductive IfResult where
  /-- Returned 0: the caller goes on to tokenize the line. -/
  | not_handled : IfResult
  /-- A copy with a negative length: the behaviour leaves the buffers. -/
  | out_of_bounds : IfResult
  /-- Returned 1 after `fork` failed; nothing ran. -/
  | fork_failed : IfResult
  /-- Returned 1; the condition was executed with `cond_args`, then the tokens in
  `dispatched` (if any) went to `handle_builtin` / `execute`. -/
  | ran (cond_args : List CStr) (dispatched : Option (List CStr)) : IfResult
deriving DecidableEq, Repr

/-- Lines 44 and 63-111 of `handle_if_else`, once `condbuf`, `thenbuf` and `elsebuf` hold the
copied texts `c`, `t` and `e`: trimming, the condition process, the dispatch of a body. -/
def conditional_result (st : VarStore) (env : Env) (run : List CStr → ChildEnd)
    (c t e : CStr) : IfResult :=
  let condbuf := trim_whitespace c
  let thenbuf := trim_whitespace t
  let elsebuf := trim_whitespace e
  match tokenize st env condbuf with
  | none => IfResult.not_handled
  | some cond_args =>
    match run cond_args with
    | ChildEnd.fork_failed => IfResult.fork_failed
    | status =>
      if cond_ok status then IfResult.ran cond_args (tokenize st env thenbuf)
      else if elsebuf ≠ [] then IfResult.ran cond_args (tokenize st env elsebuf)
      else IfResult.ran cond_args none

/-- The function `handle_if_else(cmdline)`; `run` gives the fate of the condition process. -/
def handle_if_else (st : VarStore) (env : Env) (run : List CStr → ChildEnd)
    (cmdline : CStr) : IfResult :=
  match if_scan cmdline with
  | none => IfResult.not_handled
  | some sc =>
    match copy_field (sc.p.drop 3) sc.cond_len with
    | none => IfResult.out_of_bounds
    | some condraw =>
      match copy_field (sc.p.drop (sc.then_ptr + 6)) sc.then_len,
            (match sc.else_ptr, sc.else_len with
             | some else_ptr, some else_len => copy_field (sc.p.drop (else_ptr + 6)) else_len
             | _, _ => some []) with
      | some thenraw, some elseraw => conditional_result st env run condraw thenraw elseraw
      | _, _ => IfResult.out_of_bounds

/-- The return value of `handle_if_else` for the results that have one. -/
def if_return : IfResult → Option Int
  | IfResult.not_handled => some 0
  | IfResult.out_of_bounds => none
  | IfResult.fork_failed => some 1
  | IfResult.ran _ _ => some 1

/-! ## Process orchestration (`execute.c`, `execute`)

The NULL-terminated array `arglist` is the list of its entries before the first NULL.
Overwriting an entry with NULL ends the visible sequence there. -/

/-- The background scan (lines 124-132): the flag and the entries visible afterwards. -/
def detect_background : List CStr → Bool × List CStr
  | [] => (false, [])
  | t :: ts =>
    if t = "&".toList then (true, [])
    else ((detect_background ts).1, t :: (detect_background ts).2)

/-- The counting loop of line 136. -/
def count_pipes : List CStr → Nat
  | [] => 0
  | t :: ts => if t = "|".toList then count_pipes ts + 1 else count_pipes ts

/-- The segmentation loop (lines 185-197): the entries seen through `cmds[0]`, `cmds[1]`, ...
once every `|` has been overwritten with NULL. -/
def split_pipes : List CStr → List (List CStr)
  | [] => [[]]
  | t :: ts =>
    if t = "|".toList then [] :: split_pipes ts
    else
      match split_pipes ts with
      | [] => [[t]]
      | cur :: later => (t :: cur) :: later

/-- The descriptor changes a child makes for its redirections. -/
inductive Redirection where
  | input (path : CStr) : Redirection
  | truncate (path : CStr) : Redirection
  | append (path : CStr) : Redirection
deriving DecidableEq, Repr

/-- The three `strcmp` tests of the redirection loop. -/
def redirection_of (t path : CStr) : Option Redirection :=
  if t = "<".toList then some (Redirection.input path)
  else if t = ">".toList then some (Redirection.truncate path)
  else if t = ">>".toList then some (Redirection.append path)
  else none

/-- The redirection loop of a child (lines 146-166 and 227-247) over the entries from index
`x` on: the entries as left in the array (`none` is a NULL written over an operator), and
the redirections made, in order.  The result is `none` when an `open` fails (`exit(1)`).
The entry after an operator is read again as `cur[x]` in the next iteration. -/
def resolve_redirections (open_ok : CStr → Bool) :
    List CStr → Option (List (Option CStr) × List Redirection)
  | [] => some ([], [])
  | [t] => some ([some t], [])
  | t :: path :: rest =>
    match redirection_of t path with
    | some r =>
      if open_ok path then
        (resolve_redirections open_ok (path :: rest)).map (fun ar => (none :: ar.1, r :: ar.2))
      else none
    | none =>
      (resolve_redirections open_ok (path :: rest)).map (fun ar => (some t :: ar.1, ar.2))

/-- The argument vector `execvp` reads from an array: the entries before the first NULL. -/
def argv_of : List (Option CStr) → List CStr
  | some t :: rest => t :: argv_of rest
  | _ => []

/-- What a child does after its redirection loop. -/
inductive ChildAction where
  /-- An `open` failed: `perror`, `exit(1)`, no `execvp`. -/
  | open_failed : ChildAction
  /-- The call `execvp(argv[0], argv)` with the redirections in place. -/
  | exec (argv : List CStr) (redirections : List Redirection) : ChildAction
deriving DecidableEq, Repr

/-- The child code of one stage: redirection loop, then `execvp`. -/
def child_command (open_ok : CStr → Bool) (stage : List CStr) : ChildAction :=
  match resolve_redirections open_ok stage with
  | none => ChildAction.open_failed
  | some ar => ChildAction.exec (argv_of ar.1) ar.2

/-- The array `pipefds` after the `pipe(pipefds + j*2)` calls returned the given pairs
(read end, write end). -/
def pipefds_of : List (Nat × Nat) → List Nat
  | [] => []
  | (r, w) :: rest => r :: w :: pipefds_of rest

/-- The index of `pipefds` that child `j` duplicates onto standard input (line 216). -/
def stdin_index (j : Nat) : Option Nat :=
  if j > 0 then some ((j - 1) * 2) else none

/-- The index of `pipefds` that child `j` duplicates onto standard output (line 220). -/
def stdout_index (num_cmds j : Nat) : Option Nat :=
  if j < num_cmds - 1 then some (j * 2 + 1) else none

/-- One forked child: the pipe descriptors duplicated onto its standard input and output (if
any), and what it runs. -/
structure Child where
  stdin_fd : Option Nat
  stdout_fd : Option Nat
  action : ChildAction
deriving DecidableEq, Repr

/-- What `execute` sets up when every `fork` and `pipe` succeeds. -/
structure ExecPlan where
  background : Bool
  children : List Child
deriving DecidableEq, Repr

/-- The function `execute(arglist)`; `mkpipe j` is the pair the `j`-th `pipe` call returns.
The result is `none` when `arglist[0]` is NULL (return 0 without doing anything). -/
def execute (open_ok : CStr → Bool) (mkpipe : Nat → Nat × Nat) (arglist : List CStr) :
    Option ExecPlan :=
  match arglist with
  | [] => none
  | _ :: _ =>
    let bg := detect_background arglist
    let pipe_count := count_pipes bg.2
    if pipe_count = 0 then
      some ⟨bg.1, [⟨none, none, child_command open_ok bg.2⟩]⟩
    else
      let num_cmds := pipe_count + 1
      let cmds := split_pipes bg.2
      let pipefds := pipefds_of ((List.range (num_cmds - 1)).map mkpipe)
      some ⟨bg.1, (List.range num_cmds).map (fun j =>
        ⟨(stdin_index j).bind (fun i => pipefds.get? i),
         (stdout_index num_cmds j).bind (fun i => pipefds.get? i),
         child_command open_ok (cmds.getD j [])⟩)⟩

/-! ## The interpreter loop (`main.c`) -/

/-- The call `strchr(tok, c)`: offset of the first `c`, `none` for NULL. -/
def strchr (c : Char) : CStr → Option Nat
  | [] => none
  | d :: rest => if d = c then some 0 else (strchr c rest).map (fun i => i + 1)

/-- The helper `is_assignment_token(tok)`. -/
def is_assignment_token (tok : CStr) : Bool :=
  match strchr '=' tok with
  | none => false
  | some eq => eq ≠ 0

/-- The characters `isspace` accepts (C locale). -/
def is_c_space (c : Char) : Bool :=
  c = ' ' || c = '\t' || c = '\n' || c = '\r' || c = Char.ofNat 11 || c = Char.ofNat 12

/-- The digit loop of `atoi`. -/
def atoi_digits : Int → CStr → Int
  | acc, [] => acc
  | acc, c :: rest =>
    if c.isDigit then atoi_digits (acc * 10 + ((c.toNat : Int) - 48)) rest else acc

/-- The library call `atoi(s)` for values that fit an `int`. -/
def atoi (s : CStr) : Int :=
  match s.dropWhile is_c_space with
  | '-' :: rest => - atoi_digits 0 rest
  | '+' :: rest => atoi_digits 0 rest
  | rest => atoi_digits 0 rest

/-- The global tables of the shell. -/
structure Shell where
  history : History
  vars : VarStore

/-- What one iteration of the loop in `main` did with the line it read. -/
inductive LineOutcome where
  | empty_line : LineOutcome
  | no_such_history : LineOutcome
  | conditional (r : IfResult) : LineOutcome
  | no_tokens : LineOutcome
  | assigned (name value : CStr) : LineOutcome
  | dispatched (arglist : List CStr) : LineOutcome
deriving DecidableEq, Repr

/-- The part of the loop body in `main` from `handle_if_else` on. -/
def process_cmdline (env : Env) (run : List CStr → ChildEnd) (sh : Shell) (cmdline : CStr) :
    Shell × LineOutcome :=
  match handle_if_else sh.vars env run cmdline with
  | IfResult.not_handled =>
    match tokenize sh.vars env cmdline with
    | none => (sh, LineOutcome.no_tokens)
    | some [tok] =>
      if is_assignment_token tok then
        let name_len := (strchr '=' tok).getD 0
        let name := strncpy tok name_len
        let value := strncpy (tok.drop (name_len + 1)) (ARGLEN - 1)
        (⟨sh.history, set_var sh.vars name value⟩, LineOutcome.assigned name value)
      else (sh, LineOutcome.dispatched [tok])
    | some arglist => (sh, LineOutcome.dispatched arglist)
  | r => (sh, LineOutcome.conditional r)

/-- One iteration of the loop in `main` on the line `readline` returned: `read_cmd` records
it, then recall, conditional, tokenizing, assignment or dispatch. -/
def main_iteration (env : Env) (run : List CStr → ChildEnd) (sh : Shell) (line : CStr) :
    Shell × LineOutcome :=
  let sh1 : Shell := ⟨internal_history_add sh.history line, sh.vars⟩
  match line with
  | [] => (sh1, LineOutcome.empty_line)
  | c :: rest =>
    if c = '!' ∧ (c :: rest).length > 1 then
      match internal_history_get sh1.history (atoi rest) with
      | some recalled => process_cmdline env run sh1 recalled
      | none => (sh1, LineOutcome.no_such_history)
    else process_cmdline env run sh1 (c :: rest)

/-- No environment variable is set. -/
def emptyEnv : Env := fun _ => none

/-! ## Specification-side notions -/

/-- The maximal runs of characters other than space and tab, in order: the pieces between
delimiters, empty pieces dropped. -/
def word_runs (line : CStr) : List CStr :=
  (line.splitOnP is_delim).filter (fun r => !r.isEmpty)

/-- The variable's current value: the session store's value if the name is set there,
otherwise the environment's value. -/
def current_value (st : VarStore) (env : Env) (name : CStr) : Option CStr :=
  match st.find? (fun e => decide (e.1 = name)) with
  | some e => some e.2
  | none => env name

/-- The redirection operators. -/
def is_redirection_operator (t : CStr) : Bool :=
  t = "<".toList || t = ">".toList || t = ">>".toList

/-- The argument list the specification describes for a stage: every redirection operator
that is followed by a path token is removed together with that path token, every other token
is kept in order. -/
def strip_redirections : List CStr → List CStr
  | [] => []
  | [t] => [t]
  | t :: path :: rest =>
    if is_redirection_operator t then strip_redirections rest
    else t :: strip_redirections (path :: rest)

/-- The text `needle` stands in `hay` at offset `k`. -/
abbrev occurs_at (needle hay : CStr) (k : Nat) : Prop :=
  (hay.drop k).take needle.length = needle

/-- The conditional line with an else part built from condition `c` and bodies `t`, `e`. -/
def if_else_line (c t e : CStr) : CStr :=
  "if ".toList ++ c ++ " then ".toList ++ t ++ " else ".toList ++ e ++ " fi".toList

/-- The conditional line without an else part. -/
def if_then_line (c t : CStr) : CStr :=
  "if ".toList ++ c ++ " then ".toList ++ t ++ " fi".toList

/-- The conditional line built from a condition, a then-body and an optional else-body. -/
def conditional_line (c t : CStr) : Option CStr → CStr
  | some e => if_else_line c t e
  | none => if_then_line c t

/-- The offset of the closing ` fi` in `conditional_line c t e`. -/
def fi_offset (c t : CStr) : Option CStr → Nat
  | some e => 3 + c.length + 6 + t.length + 6 + e.length
  | none => 3 + c.length + 6 + t.length

/-- The condition `true` exits with status 0, every other command with status 1. -/
def run_true_only : List CStr → ChildEnd :=
  fun args => if args = ["true".toList] then ChildEnd.exited 0 else ChildEnd.exited 1

/-- A session store that holds `MAX_VARS` variables `v`, `vv`, `vvv`, ..., all empty. -/
def full_store : VarStore :=
  (List.range 200).map (fun i => (List.replicate (i + 1) 'v', []))

/-! # Theorems -/

/-! ## Facts about expansion -/

theorem expand_loop_plain (st : VarStore) (env : Env) :
    ∀ (fuel : Nat) (p buf : CStr), '$' ∉ p → p.length ≤ fuel → buf.length ≤ ARGLEN - 1 →
      expand_loop st env fuel p buf = buf ++ p.take (ARGLEN - 1 - buf.length) := by
  intro fuel
  induction fuel with
  | zero =>
    intro p buf _ hl _
    have : p = [] := List.length_eq_zero.mp (Nat.le_zero.mp hl)
    subst this
    simp [expand_loop]
  | succ n ih =>
    intro p buf hd hl hb
    cases p with
    | nil => simp [expand_loop]
    | cons c p1 =>
      have hc : c ≠ '$' := fun h => hd (by simp [h])
      have hd1 : '$' ∉ p1 := fun h => hd (List.mem_cons_of_mem _ h)
      have hl1 : p1.length ≤ n := by simpa using hl
      by_cases hlt : buf.length < ARGLEN - 1
      · have hb1 : (buf ++ [c]).length ≤ ARGLEN - 1 := by simp; omega
        simp only [expand_loop, if_pos hlt, if_neg hc]
        rw [ih p1 (buf ++ [c]) hd1 hl1 hb1]
        have e : ARGLEN - 1 - buf.length = (ARGLEN - 1 - (buf ++ [c]).length) + 1 := by
          simp; omega
        rw [e, List.take_succ_cons]
        simp
      · have e : ARGLEN - 1 - buf.length = 0 := by omega
        simp only [expand_loop, if_neg hlt, e, List.take_zero, List.append_nil]

theorem expand_plain (st : VarStore) (env : Env) (tok : CStr) (hd : '$' ∉ tok) :
    expand_token_inplace st env tok = tok.take (ARGLEN - 1) := by
  unfold expand_token_inplace strncpy
  rw [expand_loop_plain st env _ tok [] hd (le_refl _) (by simp)]
  simp

/-! ## Facts about the tokenizer -/

theorem word_runs_nil : word_runs [] = [] := by
  simp [word_runs]

theorem word_runs_cons_delim (c : Char) (s : CStr) (hc : is_delim c = true) :
    word_runs (c :: s) = word_runs s := by
  simp [word_runs, hc]

theorem word_runs_dropWhile (s : CStr) : word_runs (s.dropWhile is_delim) = word_runs s := by
  induction s with
  | nil => rfl
  | cons c s ih =>
    by_cases hc : is_delim c = true
    · rw [List.dropWhile_cons_of_pos hc, ih, word_runs_cons_delim c s hc]
    · rw [List.dropWhile_cons_of_neg hc]

theorem takeWhile_not_delim (s : CStr) : ∀ x ∈ s.takeWhile (fun x => !is_delim x), ¬ is_delim x = true := by
  intro x hx
  have := List.mem_takeWhile_imp hx
  simpa using this

theorem word_runs_strtok (s : CStr) :
    word_runs s = match strtok s with
      | none => []
      | some (tok, rest) => tok :: word_runs rest := by
  rw [← word_runs_dropWhile s]
  unfold strtok
  cases h : s.dropWhile is_delim with
  | nil => simp [word_runs_nil]
  | cons c r =>
    have hc : ¬ is_delim c = true := by
      have := List.head_dropWhile_not is_delim s
      simp [h] at this
      simp [this]
    simp only
    have hsplit := List.takeWhile_append_dropWhile (fun x => !is_delim x) (c :: r)
    cases hd : (c :: r).dropWhile (fun x => !is_delim x) with
    | nil =>
      rw [hd, List.append_nil] at hsplit
      have hall : ∀ x ∈ c :: r, ¬ is_delim x = true := by
        rw [← hsplit]; exact takeWhile_not_delim (c :: r)
      rw [hsplit]
      simp only [List.drop_nil, word_runs_nil]
      rw [word_runs, List.splitOnP_eq_single is_delim _ hall]
      simp
    | cons d q =>
      rw [hd] at hsplit
      have hdl : is_delim d = true := by
        have := List.head_dropWhile_not (fun x => !is_delim x) (c :: r)
        simp [hd] at this
        exact this
      have hne : (c :: r).takeWhile (fun x => !is_delim x) ≠ [] := by
        simp [List.takeWhile_cons, hc]
      conv_lhs => rw [← hsplit]
      rw [word_runs, List.splitOnP_first is_delim _ (takeWhile_not_delim (c :: r)) d hdl q]
      simp [word_runs, hne]

theorem tokenize_loop_eq (st : VarStore) (env : Env) :
    ∀ (n : Nat) (s : CStr),
      tokenize_loop st env n s = ((word_runs s).take n).map (expand_token_inplace st env) := by
  intro n
  induction n with
  | zero => intro s; simp [tokenize_loop]
  | succ n ih =>
    intro s
    rw [word_runs_strtok s]
    unfold tokenize_loop
    cases strtok s with
    | none => simp
    | some tr =>
      obtain ⟨tok, rest⟩ := tr
      simp [ih rest]

theorem splitOnP_mem (p : Char → Bool) :
    ∀ (s : CStr) (r : CStr), r ∈ s.splitOnP p → ∀ c ∈ r, c ∈ s ∧ ¬ p c = true := by
  intro s
  induction s with
  | nil => intro r hr c hc; simp at hr; subst hr; simp at hc
  | cons x xs ih =>
    intro r hr c hc
    rw [List.splitOnP_cons] at hr
    by_cases hx : p x = true
    · rw [if_pos hx] at hr
      rcases List.mem_cons.mp hr with h | h
      · subst h; simp at hc
      · exact ⟨List.mem_cons_of_mem _ (ih r h c hc).1, (ih r h c hc).2⟩
    · rw [if_neg hx] at hr
      cases hs : xs.splitOnP p with
      | nil => rw [hs] at hr; simp at hr
      | cons h t =>
        rw [hs] at hr ih
        simp only [List.modifyHead_cons, List.mem_cons] at hr
        rcases hr with h1 | h1
        · subst h1
          rcases List.mem_cons.mp hc with h2 | h2
          · subst h2; exact ⟨List.mem_cons_self _ _, hx⟩
          · have := ih h (List.mem_cons_self _ _) c h2
            exact ⟨List.mem_cons_of_mem _ this.1, this.2⟩
        · have := ih r (List.mem_cons_of_mem _ h1) c hc
          exact ⟨List.mem_cons_of_mem _ this.1, this.2⟩

theorem word_runs_mem (s r : CStr) (hr : r ∈ word_runs s) :
    r ≠ [] ∧ ∀ c ∈ r, c ∈ s ∧ ¬ is_delim c = true := by
  unfold word_runs at hr
  rw [List.mem_filter] at hr
  refine ⟨?_, splitOnP_mem is_delim s r hr.1⟩
  intro h
  simp [h] at hr

theorem word_runs_eq_nil_iff (s : CStr) : word_runs s = [] ↔ ∀ c ∈ s, is_delim c = true := by
  induction s with
  | nil => simp [word_runs_nil]
  | cons c s ih =>
    by_cases hc : is_delim c = true
    · rw [word_runs_cons_delim c s hc, ih]
      simp [hc]
    · constructor
      · intro h
        rw [word_runs_strtok, strtok, List.dropWhile_cons_of_neg hc] at h
        simp at h
      · intro h
        exact absurd (h c (List.mem_cons_self _ _)) hc

theorem tokenize_eq_runs (st : VarStore) (env : Env) (line : CStr) :
    tokenize st env line =
      (if word_runs (line.take (MAX_LEN - 1)) = [] then none
       else some (((word_runs (line.take (MAX_LEN - 1))).take MAXARGS).map
              (expand_token_inplace st env))) := by
  unfold tokenize strncpy
  rw [tokenize_loop_eq]
  cases h : word_runs (line.take (MAX_LEN - 1)) with
  | nil => simp
  | cons r rs => simp [MAXARGS]

/-- C1. For every line shorter than 1024 characters without `$`, `tokenize` returns the maximal
runs of non-space, non-tab characters in order, each cut to 255 characters and only the first
100 of them, and it returns NULL exactly when the line consists of spaces and tabs only. -/
theorem tokenize_returns_word_runs (st : VarStore) (env : Env) (line : CStr)
    (hlen : line.length < 1024) (hd : '$' ∉ line) :
    tokenize st env line =
        (if word_runs line = [] then none
         else some (((word_runs line).take 100).map (fun r => r.take 255)))
      ∧ (tokenize st env line = none ↔ ∀ c ∈ line, c = ' ' ∨ c = '\t') := by
  have htake : line.take (MAX_LEN - 1) = line :=
    List.take_of_length_le (by simp only [MAX_LEN]; omega)
  have hmap : ((word_runs line).take MAXARGS).map (expand_token_inplace st env)
      = ((word_runs line).take 100).map (fun r => r.take 255) := by
    apply List.map_congr_left
    intro r hr
    have hmem := word_runs_mem line r (List.mem_of_mem_take hr)
    exact expand_plain st env r (fun h => hd (hmem.2 _ h).1)
  have key := tokenize_eq_runs st env line
  rw [htake, hmap] at key
  refine ⟨key, ?_⟩
  rw [key]
  by_cases h : word_runs line = []
  · simp only [h, if_true, true_iff]
    intro c hc
    have := (word_runs_eq_nil_iff line).mp h c hc
    simpa [is_delim] using this
  · simp only [h, if_false]
    refine ⟨fun hn => by simp at hn, fun hall => ?_⟩
    exfalso
    apply h
    rw [word_runs_eq_nil_iff]
    intro c hc
    have := hall c hc
    simpa [is_delim] using this

/-- C1 at a concrete line with leading, repeated and trailing delimiters. -/
theorem tokenize_returns_word_runs_witness :
    tokenize [] emptyEnv "  ls \t -l  x ".toList =
        (if word_runs "  ls \t -l  x ".toList = [] then none
         else some (((word_runs "  ls \t -l  x ".toList).take 100).map (fun r => r.take 255)))
      ∧ (tokenize [] emptyEnv "  ls \t -l  x ".toList = none
          ↔ ∀ c ∈ "  ls \t -l  x ".toList, c = ' ' ∨ c = '\t') :=
  tokenize_returns_word_runs [] emptyEnv "  ls \t -l  x ".toList (by decide) (by decide)

/-! ## Variable references -/

theorem get_var_eq_current_value (env : Env) (name : CStr) :
    ∀ st : VarStore, get_var env st name = current_value st env name := by
  intro st
  induction st with
  | nil => rfl
  | cons e rest ih =>
    obtain ⟨n, v⟩ := e
    by_cases h : n = name
    · simp [get_var, current_value, h]
    · simp only [get_var, if_neg h, ih]
      simp [current_value, List.find?_cons, h]

theorem collect_name_all (ok : Char → Bool) :
    ∀ (room : Nat) (name rest : CStr), (∀ c ∈ name, ok c = true) → name.length ≤ room →
      (∀ d ∈ rest.head?, ok d = false) → collect_name ok room (name ++ rest) = (name, rest) := by
  intro room
  induction room with
  | zero =>
    intro name rest _ hl _
    have : name = [] := List.length_eq_zero.mp (Nat.le_zero.mp hl)
    subst this
    simp [collect_name]
  | succ n ih =>
    intro name rest hok hl hrest
    cases name with
    | nil =>
      cases rest with
      | nil => simp [collect_name]
      | cons d q =>
        have : ok d = false := hrest d (by simp)
        simp [collect_name, this]
    | cons c name1 =>
      have hc : ok c = true := hok c (List.mem_cons_self _ _)
      have h1 := ih name1 rest (fun x hx => hok x (List.mem_cons_of_mem _ hx))
        (by simpa using hl) hrest
      simp [collect_name, hc, h1]

theorem expand_loop_nil (st : VarStore) (env : Env) (fuel : Nat) (buf : CStr) :
    expand_loop st env fuel [] buf = buf := by
  cases fuel <;> simp [expand_loop]

theorem is_name_char_ne_brace (c : Char) (h : is_name_char c = true) :
    c ≠ Char.ofNat 123 ∧ c ≠ Char.ofNat 125 := by
  constructor
  · intro hc; subst hc; revert h; decide
  · intro hc; subst hc; revert h; decide

theorem expand_dollar_name (st : VarStore) (env : Env) (name : CStr) (hne : name ≠ [])
    (hchars : ∀ c ∈ name, is_name_char c = true) (hlen : name.length ≤ ARGLEN - 1) :
    expand_token_inplace st env ('$' :: name) = ((get_var env st name).getD []).take (ARGLEN - 1) := by
  cases name with
  | nil => exact absurd rfl hne
  | cons c1 p2 =>
    have hc1 : c1 ≠ Char.ofNat 123 := (is_name_char_ne_brace c1 (hchars c1 (List.mem_cons_self _ _))).1
    have hcol : collect_name is_name_char (ARGLEN - 1) (c1 :: p2) = (c1 :: p2, []) := by
      have := collect_name_all is_name_char (ARGLEN - 1) (c1 :: p2) [] hchars hlen (by simp)
      simpa using this
    unfold expand_token_inplace strncpy
    simp only [List.length_cons, expand_loop, List.length_nil, if_neg hc1, hcol]
    cases get_var env st (c1 :: p2) with
    | none => simp [ARGLEN, expand_loop_nil]
    | some v => simp [ARGLEN, expand_loop_nil, List.take_take]

theorem expand_dollar_braced (st : VarStore) (env : Env) (name : CStr)
    (hchars : ∀ c ∈ name, is_name_char c = true) (hlen : name.length ≤ ARGLEN - 1) :
    expand_token_inplace st env ('$' :: Char.ofNat 123 :: (name ++ [Char.ofNat 125]))
      = ((get_var env st name).getD []).take (ARGLEN - 1) := by
  have hcol : collect_name (fun x => x != Char.ofNat 125) (ARGLEN - 1) (name ++ [Char.ofNat 125])
      = (name, [Char.ofNat 125]) := by
    apply collect_name_all
    · intro c hc
      have := (is_name_char_ne_brace c (hchars c hc)).2
      simpa using this
    · exact hlen
    · simp
  unfold expand_token_inplace strncpy
  simp only [List.length_cons, expand_loop, List.length_nil, hcol, if_true]
  cases get_var env st name with
  | none => simp [ARGLEN, expand_loop_nil]
  | some v => simp [ARGLEN, expand_loop_nil, List.take_take]

/-- C2. For every store, environment and non-empty name of at most 254 letters, digits and
underscores, the tokens `$NAME` and `$\x7bNAME\x7d` expand to the same text: the current value
of the variable (session store first, else environment) cut to 255 characters, or the empty
string when it is set in neither. -/
theorem expand_variable_reference (st : VarStore) (env : Env) (name : CStr)
    (hne : name ≠ []) (hchars : ∀ c ∈ name, c = '_' ∨ c.isAlphanum = true)
    (hlen : name.length ≤ 254) :
    expand_token_inplace st env ("$".toList ++ name)
        = expand_token_inplace st env ("$\x7b".toList ++ name ++ "\x7d".toList)
      ∧ expand_token_inplace st env ("$".toList ++ name)
        = (match current_value st env name with
           | some v => v.take 255
           | none => []) := by
  have hch : ∀ c ∈ name, is_name_char c = true := by
    intro c hc
    rcases hchars c hc with h | h <;> simp [is_name_char, h]
  have hl : name.length ≤ ARGLEN - 1 := by simp only [ARGLEN]; omega
  have e1 : "$".toList ++ name = '$' :: name := rfl
  have e2 : "$\x7b".toList ++ name ++ "\x7d".toList
      = '$' :: Char.ofNat 123 :: (name ++ [Char.ofNat 125]) := rfl
  rw [e1, e2, expand_dollar_name st env name hne hch hl, expand_dollar_braced st env name hch hl,
    get_var_eq_current_value]
  refine ⟨rfl, ?_⟩
  cases current_value st env name <;> simp [ARGLEN]

/-- C2 at the name `HOME_1`, set in the session store and (differently) in the environment. -/
theorem expand_variable_reference_witness :
    expand_token_inplace [("HOME_1".toList, "/root".toList)]
          (fun n => if n = "HOME_1".toList then some "/env".toList else none)
          ("$".toList ++ "HOME_1".toList)
        = expand_token_inplace [("HOME_1".toList, "/root".toList)]
          (fun n => if n = "HOME_1".toList then some "/env".toList else none)
          ("$\x7b".toList ++ "HOME_1".toList ++ "\x7d".toList)
      ∧ expand_token_inplace [("HOME_1".toList, "/root".toList)]
          (fun n => if n = "HOME_1".toList then some "/env".toList else none)
          ("$".toList ++ "HOME_1".toList)
        = (match current_value [("HOME_1".toList, "/root".toList)]
              (fun n => if n = "HOME_1".toList then some "/env".toList else none)
              "HOME_1".toList with
           | some v => v.take 255
           | none => []) :=
  expand_variable_reference [("HOME_1".toList, "/root".toList)]
    (fun n => if n = "HOME_1".toList then some "/env".toList else none)
    "HOME_1".toList (by decide) (by decide) (by decide)

/-! ## The fuel of `expand_loop` is never exhausted -/

theorem collect_name_length (ok : Char → Bool) :
    ∀ (room : Nat) (p : CStr), (collect_name ok room p).2.length ≤ p.length := by
  intro room
  induction room with
  | zero => intro p; simp [collect_name]
  | succ n ih =>
    intro p
    cases p with
    | nil => simp [collect_name]
    | cons c q =>
      by_cases hc : ok c = true
      · simp only [collect_name, hc, if_true, List.length_cons]
        exact Nat.le_succ_of_le (ih q)
      · simp [collect_name, hc]

/-- The unread text after a variable reference, as computed inside `expand_loop`. -/
theorem reference_rest_length (c1 : Char) (p2 : CStr) :
    (if c1 = Char.ofNat 123 then
        (match (collect_name (fun x => x != Char.ofNat 125) (ARGLEN - 1) p2).2 with
          | d :: q => if d = Char.ofNat 125 then
              ((collect_name (fun x => x != Char.ofNat 125) (ARGLEN - 1) p2).1, q)
              else collect_name (fun x => x != Char.ofNat 125) (ARGLEN - 1) p2
          | [] => collect_name (fun x => x != Char.ofNat 125) (ARGLEN - 1) p2)
      else collect_name is_name_char (ARGLEN - 1) (c1 :: p2)).2.length ≤ p2.length + 1 := by
  split
  · have h := collect_name_length (fun x => x != Char.ofNat 125) (ARGLEN - 1) p2
    split
    · rename_i d q hq
      rw [hq] at h
      split
      · simp at h ⊢; omega
      · rw [hq]; simp at h ⊢; omega
    · omega
  · exact collect_name_length is_name_char (ARGLEN - 1) (c1 :: p2)

theorem expand_loop_fuel (st : VarStore) (env : Env) :
    ∀ (n m : Nat) (p buf : CStr), p.length ≤ n → p.length ≤ m →
      expand_loop st env n p buf = expand_loop st env m p buf := by
  intro n
  induction n with
  | zero =>
    intro m p buf hn _
    have : p = [] := List.length_eq_zero.mp (Nat.le_zero.mp hn)
    subst this
    simp [expand_loop_nil, expand_loop]
  | succ n ih =>
    intro m p buf hn hm
    cases p with
    | nil => simp [expand_loop_nil]
    | cons c p1 =>
      cases m with
      | zero => simp at hm
      | succ m =>
        have h1n : p1.length ≤ n := by simpa using hn
        have h1m : p1.length ≤ m := by simpa using hm
        simp only [expand_loop]
        split
        · split
          · cases p1 with
            | nil => rfl
            | cons c1 p2 =>
              have hr := reference_rest_length c1 p2
              simp only [List.length_cons] at h1n h1m
              simp only
              split
              · exact ih m _ _ (by omega) (by omega)
              · exact ih m _ _ (by omega) (by omega)
          · exact ih m p1 _ h1n h1m
        · rfl

/-! ## The token-sequence invariant -/

theorem expand_loop_length_ge (st : VarStore) (env : Env) :
    ∀ (fuel : Nat) (p buf : CStr), buf.length ≤ (expand_loop st env fuel p buf).length := by
  intro fuel
  induction fuel with
  | zero => intro p buf; simp [expand_loop]
  | succ n ih =>
    intro p buf
    cases p with
    | nil => simp [expand_loop]
    | cons c p1 =>
      simp only [expand_loop]
      split
      · split
        · cases p1 with
          | nil => simp
          | cons c1 p2 =>
            simp only
            split
            · exact le_trans (by simp) (ih _ _)
            · exact ih _ _
        · exact le_trans (by simp) (ih _ _)
      · exact le_refl _

theorem expand_ne_nil (st : VarStore) (env : Env) (w : CStr) (hne : w ≠ [])
    (hhead : w.head? ≠ some '$') : expand_token_inplace st env w ≠ [] := by
  cases w with
  | nil => exact absurd rfl hne
  | cons c p1 =>
    have hc : c ≠ '$' := fun h => hhead (by simp [h])
    unfold expand_token_inplace strncpy
    simp only [List.length_cons, expand_loop, List.length_nil, if_neg hc]
    have h1 := expand_loop_length_ge st env p1.length p1 ([] ++ [c])
    intro h0
    have h2 := congrArg List.length h0
    simp only [List.length_take, List.length_nil, ARGLEN] at h2
    simp only [List.nil_append, List.length_singleton] at h1
    simp only [ARGLEN, List.nil_append] at h2
    have h3 : (0 : Nat) < 256 - 1 := by decide
    simp only [if_pos h3] at h2
    omega

/-- C9, the claim as stated fails: an unset variable reference leaves an empty token in the
sequence `tokenize` returns. -/
theorem tokenize_empty_token_counterexample :
    tokenize [] emptyEnv "echo $X".toList = some ["echo".toList, []]
      ∧ ([] : CStr) ∈ ["echo".toList, ([] : CStr)] := by
  decide

/-- C9, amended.  For every line, store and environment the sequence `tokenize` returns has at
least one and at most 100 tokens, and no token is the empty string provided no word of the
line (after the cut to 1023 characters) begins with `$`; in particular when the line has no
`$` at all. -/
theorem tokenize_invariant (st : VarStore) (env : Env) (line : CStr) (toks : List CStr)
    (h : tokenize st env line = some toks) :
    toks.length ≤ 100 ∧ toks ≠ []
      ∧ ((∀ w ∈ word_runs (line.take 1023), w.head? ≠ some '$') → ([] : CStr) ∉ toks)
      ∧ ('$' ∉ line → ([] : CStr) ∉ toks) := by
  rw [tokenize_eq_runs] at h
  have e1023 : MAX_LEN - 1 = 1023 := rfl
  rw [e1023] at h
  by_cases hr : word_runs (line.take 1023) = []
  · simp [hr] at h
  · simp only [hr, if_false, Option.some.injEq] at h
    have hwords : (∀ w ∈ word_runs (line.take 1023), w.head? ≠ some '$') → ([] : CStr) ∉ toks := by
      intro hw hmem
      rw [← h, List.mem_map] at hmem
      obtain ⟨w, hwmem, hwe⟩ := hmem
      have hw1 := List.mem_of_mem_take hwmem
      exact expand_ne_nil st env w (word_runs_mem _ w hw1).1 (hw w hw1) hwe
    refine ⟨?_, ?_, hwords, ?_⟩
    · rw [← h]; simp [MAXARGS]
    · rw [← h]
      cases hq : word_runs (line.take 1023) with
      | nil => exact absurd hq hr
      | cons a b => simp [MAXARGS]
    · intro hd
      apply hwords
      intro w hw hhead
      have hm := (word_runs_mem _ w hw).2
      cases w with
      | nil => simp at hhead
      | cons c q =>
        simp at hhead
        subst hhead
        exact hd (List.mem_of_mem_take (hm _ (List.mem_cons_self _ _)).1)

/-- C9 amended, at a line with an expanded variable in the middle of a word. -/
theorem tokenize_invariant_witness :
    ["ls".toList, "ahello".toList].length ≤ 100 ∧ ["ls".toList, "ahello".toList] ≠ []
      ∧ ((∀ w ∈ word_runs ("ls a$V".toList.take 1023), w.head? ≠ some '$')
          → ([] : CStr) ∉ ["ls".toList, "ahello".toList])
      ∧ ('$' ∉ "ls a$V".toList → ([] : CStr) ∉ ["ls".toList, "ahello".toList]) :=
  tokenize_invariant [("V".toList, "hello".toList)] emptyEnv "ls a$V".toList
    ["ls".toList, "ahello".toList] (by decide)
/-! ## History -/

theorem history_after_adds :
    ∀ lines : List CStr, (∀ l ∈ lines, l ≠ [] ∧ l.length < 1024) →
      lines.foldl internal_history_add [] = lines.drop (lines.length - 200) := by
  intro lines
  induction lines using List.reverseRecOn with
  | nil => intro _; rfl
  | append_singleton l a ih =>
    intro hall
    have hl : ∀ x ∈ l, x ≠ [] ∧ x.length < 1024 := fun x hx => hall x (by simp [hx])
    have ha : a ≠ [] ∧ a.length < 1024 := hall a (by simp)
    rw [List.foldl_append, ih hl]
    simp only [List.foldl_cons, List.foldl_nil]
    have hatake : strncpy a (MAX_LEN - 1) = a :=
      List.take_of_length_le (by simp only [MAX_LEN]; omega)
    unfold internal_history_add
    rw [if_neg ha.1, hatake]
    simp only [List.length_drop, HISTORY_SIZE, List.length_append, List.length_singleton]
    by_cases hlt : l.length < 200
    · have h0 : l.length - 200 = 0 := by omega
      have h1 : l.length + 1 - 200 = 0 := by omega
      have h2 : l.length - (l.length - 200) < 200 := by omega
      rw [if_pos h2, h0, h1]
      simp
    · have h2 : ¬ l.length - (l.length - 200) < 200 := by omega
      rw [if_neg h2]
      have hmap : ∀ rows : List CStr, (∀ x ∈ rows, x.length < 1024) →
          rows.map (fun row => strncpy row MAX_LEN) = rows := by
        intro rows hrows
        conv_rhs => rw [← List.map_id rows]
        apply List.map_congr_left
        intro x hx
        exact List.take_of_length_le (by have := hrows x hx; simp only [MAX_LEN]; omega)
      rw [hmap]
      · have h3 : (l.drop (l.length - 200)).length ≤ 200 := by simp; omega
        rw [List.take_of_length_le h3, List.drop_drop]
        have h4 : l.length + 1 - 200 = l.length - 200 + 1 := by omega
        rw [h4, List.drop_append_of_le_length (by omega)]
      · intro x hx
        have hx1 := List.mem_of_mem_drop hx
        have hx2 := List.mem_of_mem_take hx1
        have hx3 := List.mem_of_mem_drop hx2
        exact (hl x hx3).2

/-- C10. After any `k` non-empty lines shorter than 1024 characters have been added to an empty
history, `internal_history_get(N)` returns the `N`-th of the most recent `min(k, 200)` lines
verbatim for `1 ≤ N ≤ min(k, 200)`, and no entry for every other `N`. -/
theorem history_recall (lines : List CStr) (N : Int)
    (hall : ∀ l ∈ lines, l ≠ [] ∧ l.length < 1024) :
    (1 ≤ N ∧ N ≤ (min lines.length 200 : Nat) →
        (lines.drop (lines.length - min lines.length 200)).get? (N - 1).toNat
            = internal_history_get (lines.foldl internal_history_add []) N
          ∧ (internal_history_get (lines.foldl internal_history_add []) N).isSome = true)
      ∧ (N < 1 ∨ N > (min lines.length 200 : Nat) →
        internal_history_get (lines.foldl internal_history_add []) N = none) := by
  rw [history_after_adds lines hall]
  have hdrop : lines.length - min lines.length 200 = lines.length - 200 := by omega
  have hlen : (lines.drop (lines.length - 200)).length = min lines.length 200 := by
    simp; omega
  unfold internal_history_get
  rw [hdrop, hlen]
  constructor
  · intro hN
    have hcond : ¬ (N < 1 ∨ N > (min lines.length 200 : Nat)) := by omega
    rw [if_neg hcond]
    refine ⟨rfl, ?_⟩
    rw [Option.isSome_iff_exists]
    have hi : (N - 1).toNat < (lines.drop (lines.length - 200)).length := by
      rw [hlen]; omega
    exact ⟨_, List.get?_eq_get hi⟩
  · intro hN
    rw [if_pos hN]

/-- C10 after three commands: `!2` recalls the second one, `!9` recalls nothing. -/
theorem history_recall_witness :
    ((1 : Int) ≤ 2 ∧ (2 : Int) ≤ (min ["ls".toList, "pwd".toList, "date".toList].length 200 : Nat) →
        (["ls".toList, "pwd".toList, "date".toList].drop
            (["ls".toList, "pwd".toList, "date".toList].length
              - min ["ls".toList, "pwd".toList, "date".toList].length 200)).get? ((2 : Int) - 1).toNat
            = internal_history_get
                (["ls".toList, "pwd".toList, "date".toList].foldl internal_history_add []) 2
          ∧ (internal_history_get
                (["ls".toList, "pwd".toList, "date".toList].foldl internal_history_add []) 2).isSome
              = true)
      ∧ ((2 : Int) < 1 ∨ (2 : Int) > (min ["ls".toList, "pwd".toList, "date".toList].length 200 : Nat) →
        internal_history_get
          (["ls".toList, "pwd".toList, "date".toList].foldl internal_history_add []) 2 = none) :=
  history_recall ["ls".toList, "pwd".toList, "date".toList] 2 (by decide)
/-! ## Background detection -/

theorem detect_background_eq (toks : List CStr) :
    detect_background toks
      = (decide ("&".toList ∈ toks), toks.takeWhile (fun t => t != "&".toList)) := by
  induction toks with
  | nil => simp [detect_background]
  | cons t ts ih =>
    by_cases h : t = "&".toList
    · simp [detect_background, h]
    · have h1 : ¬ ['&'] = t := fun e => h e.symm
      have h2 : ¬ t = ['&'] := h
      simp [detect_background, h2, h1, ih, List.takeWhile_cons]

theorem execute_background (open_ok : CStr → Bool) (mkpipe : Nat → Nat × Nat)
    (toks : List CStr) (hne : toks ≠ []) :
    (execute open_ok mkpipe toks).map (fun plan => plan.background)
      = some (detect_background toks).1 := by
  cases toks with
  | nil => exact absurd rfl hne
  | cons t ts =>
    simp only [execute]
    split <;> rfl

/-- C7, the claim as stated fails: every token after the first `&` is dropped from the
sequence that is segmented and dispatched, here `echo hi`. -/
theorem background_drops_rest_counterexample :
    "&".toList ∈ ["sleep".toList, "5".toList, "&".toList, "echo".toList, "hi".toList]
      ∧ (detect_background ["sleep".toList, "5".toList, "&".toList, "echo".toList, "hi".toList]).2
          = ["sleep".toList, "5".toList]
      ∧ ["sleep".toList, "5".toList, "&".toList, "echo".toList, "hi".toList].erase "&".toList
          = ["sleep".toList, "5".toList, "echo".toList, "hi".toList]
      ∧ execute (fun _ => true) (fun _ => (3, 4))
            ["sleep".toList, "5".toList, "&".toList, "echo".toList, "hi".toList]
          = some ⟨true, [⟨none, none, ChildAction.exec ["sleep".toList, "5".toList] []⟩]⟩ := by
  decide

/-- C7, amended.  For every token sequence that contains a token equal to `&`, `execute` sets
background = true and goes on to segment and dispatch the tokens that precede the first `&`;
that is the original sequence with the `&` removed when the `&` is its last token. -/
theorem background_detection (open_ok : CStr → Bool) (mkpipe : Nat → Nat × Nat)
    (toks : List CStr) (hamp : "&".toList ∈ toks) :
    (execute open_ok mkpipe toks).map (fun plan => plan.background) = some true
      ∧ (detect_background toks).2 = toks.takeWhile (fun t => t != "&".toList)
      ∧ (∀ pre : List CStr, toks = pre ++ ["&".toList] → "&".toList ∉ pre →
          (detect_background toks).2 = toks.erase "&".toList) := by
  have hne : toks ≠ [] := List.ne_nil_of_mem hamp
  rw [execute_background open_ok mkpipe toks hne, detect_background_eq]
  refine ⟨by simpa using hamp, rfl, ?_⟩
  intro pre hpre hnot
  subst hpre
  have h1 : (pre ++ ["&".toList]).erase "&".toList = pre := by
    rw [List.erase_append_right _ hnot]
    simp
  rw [h1]
  simp only
  rw [List.takeWhile_append_of_pos]
  · simp
  · intro t ht
    have : t ≠ "&".toList := fun e => hnot (e ▸ ht)
    simpa using this

/-- C7 amended, at `sleep 5 &`. -/
theorem background_detection_witness :
    (execute (fun _ => true) (fun _ => (3, 4)) ["sleep".toList, "5".toList, "&".toList]).map
          (fun plan => plan.background) = some true
      ∧ (detect_background ["sleep".toList, "5".toList, "&".toList]).2
          = ["sleep".toList, "5".toList, "&".toList].takeWhile (fun t => t != "&".toList)
      ∧ (∀ pre : List CStr, ["sleep".toList, "5".toList, "&".toList] = pre ++ ["&".toList] →
          "&".toList ∉ pre →
          (detect_background ["sleep".toList, "5".toList, "&".toList]).2
            = ["sleep".toList, "5".toList, "&".toList].erase "&".toList) :=
  background_detection (fun _ => true) (fun _ => (3, 4))
    ["sleep".toList, "5".toList, "&".toList] (by decide)
/-! ## Pipeline segmentation -/

theorem split_pipes_ne_nil (s : List CStr) : split_pipes s ≠ [] := by
  cases s with
  | nil => simp [split_pipes]
  | cons t ts =>
    simp only [split_pipes]
    split
    · simp
    · split <;> simp

theorem split_pipes_eq_splitOn (s : List CStr) : split_pipes s = s.splitOn "|".toList := by
  induction s with
  | nil => rfl
  | cons t ts ih =>
    have hts : ts.splitOnP (fun x => x == "|".toList) = split_pipes ts := by
      rw [ih]; rfl
    rw [List.splitOn, List.splitOnP_cons, hts]
    simp only [split_pipes, beq_iff_eq]
    split
    · rfl
    · cases hsp : split_pipes ts with
      | nil => exact absurd hsp (split_pipes_ne_nil ts)
      | cons cur later => rfl

theorem count_pipes_eq_count (s : List CStr) : count_pipes s = s.count "|".toList := by
  induction s with
  | nil => rfl
  | cons t ts ih =>
    by_cases h : t = "|".toList
    · subst h
      simp [count_pipes, ih]
    · have h1 : (t == "|".toList) = false := by simpa using h
      simp only [count_pipes, if_neg h, ih, List.count_cons, h1]
      simp

theorem split_pipes_length (s : List CStr) : (split_pipes s).length = count_pipes s + 1 := by
  induction s with
  | nil => rfl
  | cons t ts ih =>
    simp only [split_pipes, count_pipes]
    split
    · simp [ih]
    · cases hsp : split_pipes ts with
      | nil => exact absurd hsp (split_pipes_ne_nil ts)
      | cons cur later =>
        rw [hsp] at ih
        simpa using ih

theorem split_pipes_no_pipe (s : List CStr) : ∀ stage ∈ split_pipes s, "|".toList ∉ stage := by
  induction s with
  | nil => intro stage h; simp [split_pipes] at h; subst h; simp
  | cons t ts ih =>
    intro stage h
    simp only [split_pipes] at h
    split at h
    · rcases List.mem_cons.mp h with h1 | h1
      · subst h1; simp
      · exact ih stage h1
    · rename_i hne
      cases hsp : split_pipes ts with
      | nil => exact absurd hsp (split_pipes_ne_nil ts)
      | cons cur later =>
        rw [hsp] at h ih
        rcases List.mem_cons.mp h with h1 | h1
        · subst h1
          intro hm
          rcases List.mem_cons.mp hm with h2 | h2
          · exact hne h2.symm
          · exact ih cur (List.mem_cons_self _ _) h2
        · exact ih stage (List.mem_cons_of_mem _ h1)

theorem intercalate_split_pipes (s : List CStr) :
    ["|".toList].intercalate (split_pipes s) = s := by
  induction s with
  | nil => rfl
  | cons t ts ih =>
    cases hsp : split_pipes ts with
    | nil => exact absurd hsp (split_pipes_ne_nil ts)
    | cons cur later =>
      rw [hsp] at ih
      by_cases h : t = "|".toList
      · simp only [split_pipes, if_pos h, hsp]
        rw [← ih, h]
        simp [List.intercalate, List.intersperse]
      · simp only [split_pipes, if_neg h, hsp]
        conv_rhs => rw [← ih]
        cases later <;> simp [List.intercalate, List.intersperse]

theorem count_pipes_pos (s : List CStr) (h : "|".toList ∈ s) : count_pipes s ≠ 0 := by
  rw [count_pipes_eq_count]
  exact Nat.ne_of_gt (List.count_pos_iff.mpr h)

theorem map_range_getD {β : Type} (l : List (List CStr)) (f : List CStr → β) :
    (List.range l.length).map (fun j => f (l.getD j [])) = l.map f := by
  apply List.ext_getElem
  · simp
  · intro i h1 h2
    simp only [List.length_map, List.length_range] at h1
    simp [List.getElem?_eq_getElem h1]

theorem execute_pipeline_actions (open_ok : CStr → Bool) (mkpipe : Nat → Nat × Nat)
    (toks : List CStr) (hpipe : "|".toList ∈ (detect_background toks).2) :
    (execute open_ok mkpipe toks).map (fun plan => plan.children.map (fun c => c.action))
      = some ((split_pipes (detect_background toks).2).map (child_command open_ok)) := by
  cases toks with
  | nil => simp [detect_background] at hpipe
  | cons t ts =>
    have hc := count_pipes_pos _ hpipe
    simp only [execute, if_neg hc, Option.map_some', List.map_map]
    rw [← split_pipes_length]
    exact congrArg some (map_range_getD _ (child_command open_ok))

/-- C5, the claim as stated fails: a `|` after the first `&` is never seen by the
segmentation, so this sequence with one `|` runs as a single stage. -/
theorem pipe_after_background_counterexample :
    "|".toList ∈ ["a".toList, "&".toList, "|".toList, "b".toList]
      ∧ ["a".toList, "&".toList, "|".toList, "b".toList].count "|".toList + 1 = 2
      ∧ execute (fun _ => true) (fun _ => (3, 4))
            ["a".toList, "&".toList, "|".toList, "b".toList]
          = some ⟨true, [⟨none, none, ChildAction.exec ["a".toList] []⟩]⟩ := by
  decide

/-- C5, amended.  Segmentation works on the tokens `seq` that precede the first `&` (the whole
sequence when there is no `&`).  Whenever `seq` contains a `|`, `execute` forks one child per
stage, there are exactly (number of `|` in `seq`) + 1 stages, they are the maximal `|`-free
runs of `seq` in order, and joining them with `|` gives back `seq`. -/
theorem pipeline_segmentation (open_ok : CStr → Bool) (mkpipe : Nat → Nat × Nat)
    (toks seq : List CStr) (hseq : seq = toks.takeWhile (fun t => t != "&".toList))
    (hpipe : "|".toList ∈ seq) :
    (execute open_ok mkpipe toks).map (fun plan => plan.children.map (fun c => c.action))
        = some ((split_pipes seq).map (child_command open_ok))
      ∧ (split_pipes seq).length = seq.count "|".toList + 1
      ∧ split_pipes seq = seq.splitOn "|".toList
      ∧ (∀ stage ∈ split_pipes seq, "|".toList ∉ stage)
      ∧ ["|".toList].intercalate (split_pipes seq) = seq
      ∧ ("&".toList ∉ toks → seq = toks) := by
  have hbg : (detect_background toks).2 = seq := by rw [detect_background_eq, hseq]
  refine ⟨?_, ?_, split_pipes_eq_splitOn seq, split_pipes_no_pipe seq, ?_, ?_⟩
  · have := execute_pipeline_actions open_ok mkpipe toks (by rw [hbg]; exact hpipe)
    rw [hbg] at this
    exact this
  · rw [split_pipes_length, count_pipes_eq_count]
  · exact intercalate_split_pipes seq
  · intro hno
    rw [hseq, List.takeWhile_eq_self_iff]
    intro t ht
    have : t ≠ "&".toList := fun e => hno (e ▸ ht)
    simpa using this

/-- C5 amended, at `ls -l | grep x | wc &`. -/
theorem pipeline_segmentation_witness :
    (execute (fun _ => true) (fun j => (3 + 2 * j, 4 + 2 * j))
          ["ls".toList, "-l".toList, "|".toList, "grep".toList, "x".toList, "|".toList,
            "wc".toList, "&".toList]).map
          (fun plan => plan.children.map (fun c => c.action))
        = some ((split_pipes ["ls".toList, "-l".toList, "|".toList, "grep".toList, "x".toList,
            "|".toList, "wc".toList]).map (child_command (fun _ => true)))
      ∧ (split_pipes ["ls".toList, "-l".toList, "|".toList, "grep".toList, "x".toList,
            "|".toList, "wc".toList]).length
          = ["ls".toList, "-l".toList, "|".toList, "grep".toList, "x".toList, "|".toList,
            "wc".toList].count "|".toList + 1
      ∧ split_pipes ["ls".toList, "-l".toList, "|".toList, "grep".toList, "x".toList,
            "|".toList, "wc".toList]
          = ["ls".toList, "-l".toList, "|".toList, "grep".toList, "x".toList, "|".toList,
            "wc".toList].splitOn "|".toList
      ∧ (∀ stage ∈ split_pipes ["ls".toList, "-l".toList, "|".toList, "grep".toList,
            "x".toList, "|".toList, "wc".toList], "|".toList ∉ stage)
      ∧ ["|".toList].intercalate (split_pipes ["ls".toList, "-l".toList, "|".toList,
            "grep".toList, "x".toList, "|".toList, "wc".toList])
          = ["ls".toList, "-l".toList, "|".toList, "grep".toList, "x".toList, "|".toList,
            "wc".toList]
      ∧ ("&".toList ∉ ["ls".toList, "-l".toList, "|".toList, "grep".toList, "x".toList,
            "|".toList, "wc".toList, "&".toList]
          → ["ls".toList, "-l".toList, "|".toList, "grep".toList, "x".toList, "|".toList,
            "wc".toList]
            = ["ls".toList, "-l".toList, "|".toList, "grep".toList, "x".toList, "|".toList,
            "wc".toList, "&".toList]) :=
  pipeline_segmentation (fun _ => true) (fun j => (3 + 2 * j, 4 + 2 * j))
    ["ls".toList, "-l".toList, "|".toList, "grep".toList, "x".toList, "|".toList,
      "wc".toList, "&".toList]
    ["ls".toList, "-l".toList, "|".toList, "grep".toList, "x".toList, "|".toList, "wc".toList]
    (by decide) (by decide)
/-! ## Redirection resolution -/

theorem redirection_of_eq_none (t path : CStr) (h : is_redirection_operator t = false) :
    redirection_of t path = none := by
  simp only [is_redirection_operator, Bool.or_eq_false_iff, decide_eq_false_iff_not] at h
  unfold redirection_of
  rw [if_neg h.1.1, if_neg h.1.2, if_neg h.2]

theorem redirection_of_isSome (t path : CStr) (h : is_redirection_operator t = true) :
    ∃ r, redirection_of t path = some r := by
  simp only [is_redirection_operator, Bool.or_eq_true, decide_eq_true_eq] at h
  unfold redirection_of
  split
  · exact ⟨_, rfl⟩
  · split
    · exact ⟨_, rfl⟩
    · split
      · exact ⟨_, rfl⟩
      · tauto

theorem argv_before_operator (open_ok : CStr → Bool) (op path : CStr) (rest : List CStr)
    (hop : is_redirection_operator op = true) :
    ∀ (pre : List CStr) (ar : List (Option CStr) × List Redirection),
      (∀ t ∈ pre, is_redirection_operator t = false) →
      resolve_redirections open_ok (pre ++ op :: path :: rest) = some ar →
      argv_of ar.1 = pre := by
  intro pre
  induction pre with
  | nil =>
    intro ar _ h
    obtain ⟨r, hr⟩ := redirection_of_isSome op path hop
    simp only [List.nil_append, resolve_redirections, hr] at h
    split at h
    · simp only [Option.map_eq_some'] at h
      obtain ⟨a, _, ha⟩ := h
      rw [← ha]
      rfl
    · simp at h
  | cons t pre1 ih =>
    intro ar hpre h
    have ht : is_redirection_operator t = false := hpre t (List.mem_cons_self _ _)
    have hpre1 : ∀ x ∈ pre1, is_redirection_operator x = false :=
      fun x hx => hpre x (List.mem_cons_of_mem _ hx)
    obtain ⟨u, q, huq⟩ : ∃ u q, pre1 ++ op :: path :: rest = u :: q := by
      cases pre1 with
      | nil => exact ⟨_, _, rfl⟩
      | cons a b => exact ⟨_, _, rfl⟩
    rw [List.cons_append, huq] at h
    simp only [resolve_redirections, redirection_of_eq_none t u ht, Option.map_eq_some'] at h
    obtain ⟨a, ha, hae⟩ := h
    rw [← huq] at ha
    rw [← hae]
    simp only [argv_of]
    rw [ih a hpre1 ha]

theorem argv_without_operator (open_ok : CStr → Bool) :
    ∀ (stage : List CStr) (ar : List (Option CStr) × List Redirection),
      (∀ t ∈ stage.dropLast, is_redirection_operator t = false) →
      resolve_redirections open_ok stage = some ar → argv_of ar.1 = stage := by
  intro stage
  induction stage with
  | nil => intro ar _ h; simp [resolve_redirections] at h; subst h; rfl
  | cons t ts ih =>
    intro ar hno h
    cases ts with
    | nil => simp [resolve_redirections] at h; subst h; rfl
    | cons u q =>
      have ht : is_redirection_operator t = false := hno t (by simp [List.dropLast])
      have hts : ∀ x ∈ (u :: q).dropLast, is_redirection_operator x = false :=
        fun x hx => hno x (by simp only [List.dropLast_cons₂]; exact List.mem_cons_of_mem _ hx)
      simp only [resolve_redirections, redirection_of_eq_none t u ht, Option.map_eq_some'] at h
      obtain ⟨a, ha, hae⟩ := h
      rw [← hae]
      simp only [argv_of]
      rw [ih a hts ha]

/-- C6, the claim as stated fails: the tokens after a redirection are not kept, the argument
list ends at the first redirection operator that has a token after it. -/
theorem redirection_truncates_counterexample :
    child_command (fun _ => true) ["cat".toList, "<".toList, "in".toList, "-n".toList]
        = ChildAction.exec ["cat".toList] [Redirection.input "in".toList]
      ∧ strip_redirections ["cat".toList, "<".toList, "in".toList, "-n".toList]
        = ["cat".toList, "-n".toList]
      ∧ child_command (fun _ => true) ["cat".toList, "<".toList, "in".toList, ">".toList]
        = ChildAction.exec ["cat".toList] [Redirection.input "in".toList] := by
  decide

/-- C6, amended.  Whenever the child of a stage reaches `execvp`, the argument list is the
stage's tokens that precede the first redirection operator (`<`, `>`, `>>`) followed by
another token; when no operator is followed by a token the argument list is the whole
stage, so an operator that is the last token stays as a literal argument. -/
theorem redirection_resolution (open_ok : CStr → Bool) (stage argv : List CStr)
    (made : List Redirection)
    (h : child_command open_ok stage = ChildAction.exec argv made) :
    (∀ (pre : List CStr) (op path : CStr) (rest : List CStr),
        stage = pre ++ op :: path :: rest → is_redirection_operator op = true →
        (∀ t ∈ pre, is_redirection_operator t = false) → argv = pre)
      ∧ ((∀ t ∈ stage.dropLast, is_redirection_operator t = false) → argv = stage) := by
  unfold child_command at h
  cases hres : resolve_redirections open_ok stage with
  | none => rw [hres] at h; simp at h
  | some ar =>
    rw [hres] at h
    simp only [ChildAction.exec.injEq] at h
    constructor
    · intro pre op path rest hst hop hpre
      rw [hst] at hres
      rw [← h.1]
      exact argv_before_operator open_ok op path rest hop pre ar hpre hres
    · intro hno
      rw [← h.1]
      exact argv_without_operator open_ok stage ar hno hres

/-- C6 amended, at `sort -r < in > out`. -/
theorem redirection_resolution_witness :
    (∀ (pre : List CStr) (op path : CStr) (rest : List CStr),
        ["sort".toList, "-r".toList, "<".toList, "in".toList, ">".toList, "out".toList]
          = pre ++ op :: path :: rest → is_redirection_operator op = true →
        (∀ t ∈ pre, is_redirection_operator t = false) → ["sort".toList, "-r".toList] = pre)
      ∧ ((∀ t ∈ ["sort".toList, "-r".toList, "<".toList, "in".toList, ">".toList,
              "out".toList].dropLast, is_redirection_operator t = false) →
          ["sort".toList, "-r".toList]
            = ["sort".toList, "-r".toList, "<".toList, "in".toList, ">".toList, "out".toList]) :=
  redirection_resolution (fun _ => true)
    ["sort".toList, "-r".toList, "<".toList, "in".toList, ">".toList, "out".toList]
    ["sort".toList, "-r".toList]
    [Redirection.input "in".toList, Redirection.truncate "out".toList] (by decide)

/-! ## Pipe wiring -/

theorem pipefds_of_length (pipes : List (Nat × Nat)) :
    (pipefds_of pipes).length = 2 * pipes.length := by
  induction pipes with
  | nil => rfl
  | cons a rest ih =>
    obtain ⟨r, w⟩ := a
    simp only [pipefds_of, List.length_cons, ih]
    omega

theorem pipefds_of_get (pipes : List (Nat × Nat)) :
    ∀ i : Nat, (pipefds_of pipes).get? (i * 2) = (pipes.get? i).map Prod.fst
      ∧ (pipefds_of pipes).get? (i * 2 + 1) = (pipes.get? i).map Prod.snd := by
  induction pipes with
  | nil => intro i; simp [pipefds_of]
  | cons a rest ih =>
    intro i
    obtain ⟨r, w⟩ := a
    cases i with
    | zero => simp [pipefds_of]
    | succ k =>
      have e1 : (k + 1) * 2 = (k * 2) + 1 + 1 := by omega
      have e2 : (k + 1) * 2 + 1 = (k * 2 + 1) + 1 + 1 := by omega
      rw [e1]
      simp only [pipefds_of, List.get?_cons_succ]
      exact ih k

/-- C8. In a pipeline of `N ≥ 2` stages whose `N - 1` pipes are stored as pairs (read end,
write end) in `pipefds`, for every `i < N - 1` stage `i` duplicates the write end of pipe `i`
onto its standard output and stage `i + 1` duplicates the read end of the same pipe onto its
standard input; stage 0 takes no pipe as input, stage `N - 1` none as output, and every index
used lies inside the `2 * (N - 1)` entries of `pipefds`. -/
theorem pipe_wiring (N : Nat) (pipes : List (Nat × Nat)) (i : Nat)
    (hN : 2 ≤ N) (hpipes : pipes.length = N - 1) (hi : i < N - 1) :
    (∃ rd wr, pipes.get? i = some (rd, wr)
        ∧ (stdout_index N i).bind (fun k => (pipefds_of pipes).get? k) = some wr
        ∧ (stdin_index (i + 1)).bind (fun k => (pipefds_of pipes).get? k) = some rd)
      ∧ stdin_index 0 = none
      ∧ stdout_index N (N - 1) = none
      ∧ (pipefds_of pipes).length = 2 * (N - 1)
      ∧ (∀ j k, j < N → (stdin_index j = some k ∨ stdout_index N j = some k) → k < 2 * (N - 1)) := by
  have hlt : i < pipes.length := by omega
  refine ⟨⟨(pipes.get ⟨i, hlt⟩).1, (pipes.get ⟨i, hlt⟩).2, List.get?_eq_get hlt, ?_, ?_⟩,
    rfl, ?_, ?_, ?_⟩
  · simp only [stdout_index, if_pos hi, Option.some_bind]
    rw [(pipefds_of_get pipes i).2, List.get?_eq_get hlt]
    rfl
  · have hpos : i + 1 > 0 := by omega
    simp only [stdin_index, if_pos hpos, Option.some_bind, Nat.add_sub_cancel]
    rw [(pipefds_of_get pipes i).1, List.get?_eq_get hlt]
    rfl
  · simp [stdout_index]
  · rw [pipefds_of_length, hpipes]
  · intro j k hj hk
    rcases hk with hk | hk
    · unfold stdin_index at hk
      split at hk
      · simp only [Option.some.injEq] at hk
        omega
      · simp at hk
    · unfold stdout_index at hk
      split at hk
      · simp only [Option.some.injEq] at hk
        omega
      · simp at hk

/-- C8 at a three-stage pipeline, for the second pipe. -/
theorem pipe_wiring_witness :
    (∃ rd wr, [(3, 4), (5, 6)].get? 1 = some (rd, wr)
        ∧ (stdout_index 3 1).bind (fun k => (pipefds_of [(3, 4), (5, 6)]).get? k) = some wr
        ∧ (stdin_index (1 + 1)).bind (fun k => (pipefds_of [(3, 4), (5, 6)]).get? k) = some rd)
      ∧ stdin_index 0 = none
      ∧ stdout_index 3 (3 - 1) = none
      ∧ (pipefds_of [(3, 4), (5, 6)]).length = 2 * (3 - 1)
      ∧ (∀ j k, j < 3 → (stdin_index j = some k ∨ stdout_index 3 j = some k) → k < 2 * (3 - 1)) :=
  pipe_wiring 3 [(3, 4), (5, 6)] 1 (by decide) (by decide) (by decide)
/-! ## Conditional lines -/

/-- C11. The copy lengths of `handle_if_else` are not always between 0 and 1023: on
`if then echo hi fi` the marker ` then ` is found at offset 2, before the end of `if `, so
`cond_len` is -1 and the copy leaves the buffers; on `if x fi then y ` the ` fi` comes before
` then ` and `then_len` is -9.  Only the upper bound is clamped. -/
theorem conditional_negative_copy_length :
    "if then echo hi fi".toList.length < 1024
      ∧ (if_scan "if then echo hi fi".toList).map (fun sc => sc.cond_len) = some (-1)
      ∧ handle_if_else [] emptyEnv (fun _ => ChildEnd.exited 0) "if then echo hi fi".toList
          = IfResult.out_of_bounds
      ∧ (if_scan "if x fi then y ".toList).map (fun sc => (sc.cond_len, sc.then_len))
          = some (4, -9)
      ∧ handle_if_else [] emptyEnv (fun _ => ChildEnd.exited 0) "if x fi then y ".toList
          = IfResult.out_of_bounds := by
  decide

theorem isPrefixOf_iff_take (needle : CStr) :
    ∀ hay : CStr, needle.isPrefixOf hay = true ↔ hay.take needle.length = needle := by
  induction needle with
  | nil => intro hay; simp
  | cons a r ih =>
    intro hay
    cases hay with
    | nil => simp
    | cons b h =>
      simp only [List.isPrefixOf, Bool.and_eq_true, beq_iff_eq, List.length_cons,
        List.take_succ_cons, List.cons.injEq, ih h]
      constructor
      · rintro ⟨h1, h2⟩; exact ⟨h1.symm, h2⟩
      · rintro ⟨h1, h2⟩; exact ⟨h1.symm, h2⟩

theorem strstr_first (needle : CStr) :
    ∀ (hay : CStr) (k : Nat), occurs_at needle hay k → (∀ j < k, ¬ occurs_at needle hay j) →
      strstr hay needle = some k := by
  intro hay
  induction hay with
  | nil =>
    intro k hk hmin
    have hn : needle = [] := by
      have := hk
      simp only [occurs_at, List.drop_nil, List.take_nil] at this
      exact this.symm
    subst hn
    cases k with
    | zero => simp [strstr]
    | succ k => exact absurd (by simp [occurs_at]) (hmin 0 (Nat.succ_pos k))
  | cons c h ih =>
    intro k hk hmin
    cases k with
    | zero =>
      have : needle.isPrefixOf (c :: h) = true := (isPrefixOf_iff_take needle (c :: h)).mpr hk
      simp [strstr, this]
    | succ k =>
      have h0 : ¬ needle.isPrefixOf (c :: h) = true := fun hp =>
        hmin 0 (Nat.succ_pos k) ((isPrefixOf_iff_take needle (c :: h)).mp hp)
      have hk1 : occurs_at needle h k := hk
      have hmin1 : ∀ j < k, ¬ occurs_at needle h j := fun j hj hocc =>
        hmin (j + 1) (Nat.succ_lt_succ hj) hocc
      simp only [strstr, if_neg h0, ih k hk1 hmin1, Option.map_some']

theorem strstr_none (needle : CStr) :
    ∀ hay : CStr, (∀ k, ¬ occurs_at needle hay k) → strstr hay needle = none := by
  intro hay
  induction hay with
  | nil =>
    intro hno
    have hn : needle ≠ [] := fun e => hno 0 (by simp [occurs_at, e])
    simp [strstr, hn]
  | cons c h ih =>
    intro hno
    have h0 : ¬ needle.isPrefixOf (c :: h) = true := fun hp =>
      hno 0 ((isPrefixOf_iff_take needle (c :: h)).mp hp)
    have hno1 : ∀ k, ¬ occurs_at needle h k := fun k hocc => hno (k + 1) hocc
    simp only [strstr, if_neg h0, ih hno1, Option.map_none']

theorem drop_take_middle (a b c : CStr) : ((a ++ b ++ c).drop a.length).take b.length = b := by
  rw [List.append_assoc, List.drop_left, List.take_left]

theorem copy_field_nat (src : CStr) (n : Nat) : copy_field src (n : Int) = some (src.take n) := by
  have h : ¬ ((n : Int) < 0) := by omega
  simp [copy_field, h, strncpy]

theorem clamp_len_small (n : Int) (h : n < 1024) : clamp_len n = n := by
  have h1 : ¬ n ≥ ((MAX_LEN : Nat) : Int) := by simp only [MAX_LEN]; omega
  simp [clamp_len, h1]
theorem occurs_at_lt (needle hay : CStr) (j : Nat) (hne : needle ≠ [])
    (h : occurs_at needle hay j) : j < hay.length := by
  by_contra hlt
  have hd : hay.drop j = [] := List.drop_eq_nil_of_le (by omega)
  simp only [occurs_at, hd, List.take_nil] at h
  exact hne h.symm

theorem occurs_at_middle (a n c : CStr) (k : Nat) (hk : k = a.length) :
    occurs_at n (a ++ n ++ c) k := by
  subst hk
  exact drop_take_middle a n c

theorem if_scan_else_line (c t e : CStr) (hlen : (if_else_line c t e).length < 1024)
    (hthen : ∀ j < 3 + c.length, ¬ occurs_at " then ".toList (if_else_line c t e) j)
    (helse : ∀ j < 3 + c.length + 6 + t.length,
      ¬ occurs_at " else ".toList (if_else_line c t e) j)
    (hfi : ∀ j < 3 + c.length + 6 + t.length + 6 + e.length,
      ¬ occurs_at " fi".toList (if_else_line c t e) j) :
    if_scan (if_else_line c t e)
      = some ⟨if_else_line c t e, 3 + c.length, 3 + c.length + 6 + t.length + 6 + e.length,
          some (3 + c.length + 6 + t.length), (c.length : Int), (t.length : Int),
          some (e.length : Int)⟩ := by
  have hL : if_else_line c t e
      = 'i' :: 'f' :: ' ' :: (c ++ (" then ".toList ++ (t ++ (" else ".toList ++ (e ++ " fi".toList))))) := by
    simp [if_else_line]
  have hlen1 : c.length + t.length + e.length + 18 < 1024 := by
    have := hlen
    simp only [if_else_line, List.length_append] at this
    have e1 : "if ".toList.length = 3 := rfl
    have e2 : " then ".toList.length = 6 := rfl
    have e3 : " else ".toList.length = 6 := rfl
    have e4 : " fi".toList.length = 3 := rfl
    omega
  have hp : (if_else_line c t e).dropWhile (fun x => decide (x = ' ')) = if_else_line c t e := by
    rw [hL]; rfl
  have hif : (if_else_line c t e).take 3 = "if ".toList := by rw [hL]; rfl
  have o1 : occurs_at " then ".toList (if_else_line c t e) (3 + c.length) := by
    have : if_else_line c t e = ("if ".toList ++ c) ++ " then ".toList
        ++ (t ++ " else ".toList ++ e ++ " fi".toList) := by simp [if_else_line]
    rw [this]
    exact occurs_at_middle _ _ _ _ (by simp; omega)
  have o2 : occurs_at " else ".toList (if_else_line c t e) (3 + c.length + 6 + t.length) := by
    have : if_else_line c t e = ("if ".toList ++ c ++ " then ".toList ++ t) ++ " else ".toList
        ++ (e ++ " fi".toList) := by simp [if_else_line]
    rw [this]
    exact occurs_at_middle _ _ _ _ (by simp; omega)
  have o3 : occurs_at " fi".toList (if_else_line c t e)
      (3 + c.length + 6 + t.length + 6 + e.length) := by
    have : if_else_line c t e = ("if ".toList ++ c ++ " then ".toList ++ t ++ " else ".toList ++ e)
        ++ " fi".toList ++ [] := by simp [if_else_line]
    rw [this]
    exact occurs_at_middle _ _ _ _ (by simp; omega)
  have s1 := strstr_first _ _ _ o1 hthen
  have s2 := strstr_first _ _ _ o2 helse
  have s3 := strstr_first _ _ _ o3 hfi
  have hlt : 3 + c.length + 6 + t.length < 3 + c.length + 6 + t.length + 6 + e.length := by omega
  have c1 : clamp_len (((3 + c.length : Nat) : Int) - 3) = (c.length : Int) := by
    rw [clamp_len_small _ (by omega)]; omega
  have c2 : clamp_len (((3 + c.length + 6 + t.length : Nat) : Int)
      - (((3 + c.length : Nat) : Int) + 6)) = (t.length : Int) := by
    rw [clamp_len_small _ (by omega)]; omega
  have c3 : clamp_len (((3 + c.length + 6 + t.length + 6 + e.length : Nat) : Int)
      - (((3 + c.length + 6 + t.length : Nat) : Int) + 6)) = (e.length : Int) := by
    rw [clamp_len_small _ (by omega)]; omega
  unfold if_scan
  simp only [hp, hif, ne_eq, not_true_eq_false, if_false, s1, s2, s3, if_pos hlt, c1, c2, c3]
theorem if_scan_then_line (c t : CStr) (hlen : (if_then_line c t).length < 1024)
    (hthen : ∀ j < 3 + c.length, ¬ occurs_at " then ".toList (if_then_line c t) j)
    (helse : ∀ j, ¬ occurs_at " else ".toList (if_then_line c t) j)
    (hfi : ∀ j < 3 + c.length + 6 + t.length, ¬ occurs_at " fi".toList (if_then_line c t) j) :
    if_scan (if_then_line c t)
      = some ⟨if_then_line c t, 3 + c.length, 3 + c.length + 6 + t.length, none,
          (c.length : Int), (t.length : Int), none⟩ := by
  have hL : if_then_line c t
      = 'i' :: 'f' :: ' ' :: (c ++ (" then ".toList ++ (t ++ " fi".toList))) := by
    simp [if_then_line]
  have hlen1 : c.length + t.length + 12 < 1024 := by
    have := hlen
    simp only [if_then_line, List.length_append] at this
    have e1 : "if ".toList.length = 3 := rfl
    have e2 : " then ".toList.length = 6 := rfl
    have e4 : " fi".toList.length = 3 := rfl
    omega
  have hp : (if_then_line c t).dropWhile (fun x => decide (x = ' ')) = if_then_line c t := by
    rw [hL]; rfl
  have hif : (if_then_line c t).take 3 = "if ".toList := by rw [hL]; rfl
  have o1 : occurs_at " then ".toList (if_then_line c t) (3 + c.length) := by
    have : if_then_line c t = ("if ".toList ++ c) ++ " then ".toList ++ (t ++ " fi".toList) := by
      simp [if_then_line]
    rw [this]
    exact occurs_at_middle _ _ _ _ (by simp; omega)
  have o3 : occurs_at " fi".toList (if_then_line c t) (3 + c.length + 6 + t.length) := by
    have : if_then_line c t = ("if ".toList ++ c ++ " then ".toList ++ t) ++ " fi".toList ++ [] := by
      simp [if_then_line]
    rw [this]
    exact occurs_at_middle _ _ _ _ (by simp; omega)
  have s1 := strstr_first _ _ _ o1 hthen
  have s2 := strstr_none _ _ helse
  have s3 := strstr_first _ _ _ o3 hfi
  have c1 : clamp_len (((3 + c.length : Nat) : Int) - 3) = (c.length : Int) := by
    rw [clamp_len_small _ (by omega)]; omega
  have c2 : clamp_len (((3 + c.length + 6 + t.length : Nat) : Int)
      - (((3 + c.length : Nat) : Int) + 6)) = (t.length : Int) := by
    rw [clamp_len_small _ (by omega)]; omega
  unfold if_scan
  simp only [hp, hif, ne_eq, not_true_eq_false, if_false, s1, s2, s3, c1, c2]

theorem handle_if_else_else_line (st : VarStore) (env : Env) (run : List CStr → ChildEnd)
    (c t e : CStr) (hlen : (if_else_line c t e).length < 1024)
    (hthen : ∀ j < 3 + c.length, ¬ occurs_at " then ".toList (if_else_line c t e) j)
    (helse : ∀ j < 3 + c.length + 6 + t.length,
      ¬ occurs_at " else ".toList (if_else_line c t e) j)
    (hfi : ∀ j < 3 + c.length + 6 + t.length + 6 + e.length,
      ¬ occurs_at " fi".toList (if_else_line c t e) j) :
    handle_if_else st env run (if_else_line c t e) = conditional_result st env run c t e := by
  have d1 : ((if_else_line c t e).drop 3).take c.length = c := by
    have : if_else_line c t e = "if ".toList ++ c
        ++ (" then ".toList ++ t ++ " else ".toList ++ e ++ " fi".toList) := by
      simp [if_else_line]
    rw [this]
    exact occurs_at_middle _ _ _ 3 rfl
  have d2 : ((if_else_line c t e).drop (3 + c.length + 6)).take t.length = t := by
    have : if_else_line c t e = ("if ".toList ++ c ++ " then ".toList) ++ t
        ++ (" else ".toList ++ e ++ " fi".toList) := by simp [if_else_line]
    rw [this]
    exact occurs_at_middle _ _ _ _ (by simp; omega)
  have d3 : ((if_else_line c t e).drop (3 + c.length + 6 + t.length + 6)).take e.length = e := by
    have : if_else_line c t e = ("if ".toList ++ c ++ " then ".toList ++ t ++ " else ".toList)
        ++ e ++ " fi".toList := by simp [if_else_line]
    rw [this]
    exact occurs_at_middle _ _ _ _ (by simp; omega)
  unfold handle_if_else
  simp only [if_scan_else_line c t e hlen hthen helse hfi, copy_field_nat, d1, d2, d3]

theorem handle_if_else_then_line (st : VarStore) (env : Env) (run : List CStr → ChildEnd)
    (c t : CStr) (hlen : (if_then_line c t).length < 1024)
    (hthen : ∀ j < 3 + c.length, ¬ occurs_at " then ".toList (if_then_line c t) j)
    (helse : ∀ j, ¬ occurs_at " else ".toList (if_then_line c t) j)
    (hfi : ∀ j < 3 + c.length + 6 + t.length, ¬ occurs_at " fi".toList (if_then_line c t) j) :
    handle_if_else st env run (if_then_line c t) = conditional_result st env run c t [] := by
  have d1 : ((if_then_line c t).drop 3).take c.length = c := by
    have : if_then_line c t = "if ".toList ++ c ++ (" then ".toList ++ t ++ " fi".toList) := by
      simp [if_then_line]
    rw [this]
    exact occurs_at_middle _ _ _ 3 rfl
  have d2 : ((if_then_line c t).drop (3 + c.length + 6)).take t.length = t := by
    have : if_then_line c t = ("if ".toList ++ c ++ " then ".toList) ++ t ++ " fi".toList := by
      simp [if_then_line]
    rw [this]
    exact occurs_at_middle _ _ _ _ (by simp; omega)
  unfold handle_if_else
  simp only [if_scan_then_line c t hlen hthen helse hfi, copy_field_nat, d1, d2]
theorem trim_whitespace_length (s : CStr) : (trim_whitespace s).length ≤ s.length := by
  unfold trim_whitespace
  rw [List.rdropWhile, List.length_reverse]
  have h1 := (List.dropWhile_sublist is_trim_char
    (l := (s.dropWhile is_trim_char).reverse)).length_le
  have h2 := (List.dropWhile_sublist is_trim_char (l := s)).length_le
  rw [List.length_reverse] at h1
  omega

theorem tokenize_isSome (st : VarStore) (env : Env) (s : CStr) (hlen : s.length < 1024)
    (hs : word_runs s ≠ []) : ∃ args, tokenize st env s = some args := by
  rw [tokenize_eq_runs]
  have htake : s.take (MAX_LEN - 1) = s :=
    List.take_of_length_le (by simp only [MAX_LEN]; omega)
  rw [htake, if_neg hs]
  exact ⟨_, rfl⟩

theorem tokenize_nil (st : VarStore) (env : Env) : tokenize st env [] = none := by
  rfl
theorem conditional_result_spec (st : VarStore) (env : Env) (run : List CStr → ChildEnd)
    (c t e : CStr) (cond_args : List CStr)
    (hargs : tokenize st env (trim_whitespace c) = some cond_args) :
    if_return (conditional_result st env run c t e) = some 1
      ∧ (run cond_args = ChildEnd.exited 0 →
          conditional_result st env run c t e
            = IfResult.ran cond_args (tokenize st env (trim_whitespace t)))
      ∧ (∀ status, run cond_args = status → status ≠ ChildEnd.exited 0 →
          status ≠ ChildEnd.fork_failed →
          conditional_result st env run c t e
            = IfResult.ran cond_args (tokenize st env (trim_whitespace e))) := by
  have helse : (if trim_whitespace e ≠ [] then
        IfResult.ran cond_args (tokenize st env (trim_whitespace e))
      else IfResult.ran cond_args none)
      = IfResult.ran cond_args (tokenize st env (trim_whitespace e)) := by
    by_cases h : trim_whitespace e = []
    · simp [h, tokenize_nil]
    · simp [h]
  unfold conditional_result
  simp only [hargs]
  cases hrun : run cond_args with
  | fork_failed =>
    refine ⟨rfl, fun h => by simp at h, fun status hs _ h2 => absurd hs.symm h2⟩
  | exited code =>
    cases code with
    | zero =>
      refine ⟨rfl, fun _ => rfl, fun status hs h1 _ => absurd hs.symm h1⟩
    | succ n =>
      simp only [cond_ok, Bool.false_eq_true, if_false, helse]
      refine ⟨rfl, fun h => by simp at h, fun _ _ _ _ => trivial⟩
  | killed sig =>
    simp only [cond_ok, Bool.false_eq_true, if_false, helse]
    refine ⟨rfl, fun h => by simp at h, fun _ _ _ _ => trivial⟩

/-- C4. For a line `if c then t else e fi` (or `if c then t fi`) shorter than 1024 characters
in which the first ` then `, ` else ` and ` fi` are the inserted ones (no ` else ` at all in the
form without else) and the trimmed `c` has a token, `handle_if_else` reports the line as handled, runs
the tokens of the trimmed `c` as the condition, and then dispatches the tokens of the trimmed
`t` when the condition exits with status 0 and those of the trimmed `e` otherwise: nothing
when that body is empty or there is no else part. -/
theorem conditional_dispatch (st : VarStore) (env : Env) (run : List CStr → ChildEnd)
    (c t : CStr) (e : Option CStr)
    (hc : word_runs (trim_whitespace c) ≠ [])
    (hlen : (conditional_line c t e).length < 1024)
    (hthen : ∀ j < 3 + c.length, ¬ occurs_at " then ".toList (conditional_line c t e) j)
    (helse : ∀ j < (conditional_line c t e).length,
      occurs_at " else ".toList (conditional_line c t e) j →
        e.isSome = true ∧ 3 + c.length + 6 + t.length ≤ j)
    (hfi : ∀ j < fi_offset c t e, ¬ occurs_at " fi".toList (conditional_line c t e) j) :
    ∃ cond_args, tokenize st env (trim_whitespace c) = some cond_args
      ∧ if_return (handle_if_else st env run (conditional_line c t e)) = some 1
      ∧ (run cond_args = ChildEnd.exited 0 →
          handle_if_else st env run (conditional_line c t e)
            = IfResult.ran cond_args (tokenize st env (trim_whitespace t)))
      ∧ (∀ status, run cond_args = status → status ≠ ChildEnd.exited 0 →
          status ≠ ChildEnd.fork_failed →
          handle_if_else st env run (conditional_line c t e)
            = IfResult.ran cond_args
                (match e with
                 | some body => tokenize st env (trim_whitespace body)
                 | none => none))
      ∧ tokenize st env [] = none := by
  have hclen : c.length < 1024 := by
    cases e with
    | some body =>
      simp only [conditional_line, if_else_line, List.length_append] at hlen
      omega
    | none =>
      simp only [conditional_line, if_then_line, List.length_append] at hlen
      omega
  obtain ⟨cond_args, hargs⟩ := tokenize_isSome st env (trim_whitespace c)
    (lt_of_le_of_lt (trim_whitespace_length c) hclen) hc
  refine ⟨cond_args, hargs, ?_⟩
  cases e with
  | some body =>
    have helse1 : ∀ j < 3 + c.length + 6 + t.length,
        ¬ occurs_at " else ".toList (if_else_line c t body) j := by
      intro j hj ho
      have := (helse j (occurs_at_lt _ _ j (by decide) ho) ho).2
      omega
    have hh := handle_if_else_else_line st env run c t body hlen hthen helse1 hfi
    have hs := conditional_result_spec st env run c t body cond_args hargs
    simp only [conditional_line]
    rw [hh]
    exact ⟨hs.1, hs.2.1, hs.2.2, tokenize_nil st env⟩
  | none =>
    have helse1 : ∀ j, ¬ occurs_at " else ".toList (if_then_line c t) j := by
      intro j ho
      have := (helse j (occurs_at_lt _ _ j (by decide) ho) ho).1
      simp at this
    have hh := handle_if_else_then_line st env run c t hlen hthen helse1 hfi
    have hs := conditional_result_spec st env run c t [] cond_args hargs
    simp only [conditional_line]
    rw [hh]
    refine ⟨hs.1, hs.2.1, ?_, tokenize_nil st env⟩
    intro status h1 h2 h3
    rw [hs.2.2 status h1 h2 h3]
    rfl

/-- C4 at the lines of the specification: `if true then echo A else echo B fi` dispatches
`echo A`, with `false` it dispatches `echo B`, and without else part nothing. -/
theorem conditional_dispatch_witness :
    handle_if_else [] emptyEnv run_true_only "if true then echo A else echo B fi".toList
        = IfResult.ran ["true".toList] (some ["echo".toList, "A".toList])
      ∧ handle_if_else [] emptyEnv run_true_only "if false then echo A else echo B fi".toList
        = IfResult.ran ["false".toList] (some ["echo".toList, "B".toList])
      ∧ handle_if_else [] emptyEnv run_true_only "if false then echo A fi".toList
        = IfResult.ran ["false".toList] none := by
  obtain ⟨a1, h1, _, h1t, _, _⟩ := conditional_dispatch [] emptyEnv run_true_only
    "true".toList "echo A".toList (some "echo B".toList)
    (by decide) (by decide) (by decide) (by decide) (by decide)
  obtain ⟨a2, h2, _, _, h2e, _⟩ := conditional_dispatch [] emptyEnv run_true_only
    "false".toList "echo A".toList (some "echo B".toList)
    (by decide) (by decide) (by decide) (by decide) (by decide)
  obtain ⟨a3, h3, _, _, h3e, _⟩ := conditional_dispatch [] emptyEnv run_true_only
    "false".toList "echo A".toList none
    (by decide) (by decide) (by decide) (by decide) (by decide)
  have e1 : a1 = ["true".toList] := Option.some.inj (h1.symm.trans (by decide))
  have e2 : a2 = ["false".toList] := Option.some.inj (h2.symm.trans (by decide))
  have e3 : a3 = ["false".toList] := Option.some.inj (h3.symm.trans (by decide))
  subst e1 e2 e3
  refine ⟨?_, ?_, ?_⟩
  · exact (h1t (by decide)).trans (by decide)
  · exact (h2e _ rfl (by decide) (by decide)).trans (by decide)
  · exact h3e _ rfl (by decide) (by decide)

/-! ## Assignment, then expansion -/

theorem set_var_loop_some (env : Env) (name value : CStr) :
    ∀ (st st1 : VarStore), set_var_loop name value st = some st1 →
      get_var env st1 name = some (value.take (ARGLEN - 1)) := by
  intro st
  induction st with
  | nil => intro st1 h; simp [set_var_loop] at h
  | cons a rest ih =>
    intro st1 h
    obtain ⟨n, v⟩ := a
    by_cases hn : n = name
    · simp only [set_var_loop, if_pos hn, Option.some.injEq] at h
      rw [← h]
      simp [get_var, hn, strncpy]
    · simp only [set_var_loop, if_neg hn, Option.map_eq_some'] at h
      obtain ⟨r, hr, hre⟩ := h
      rw [← hre]
      simp only [get_var, if_neg hn]
      exact ih r hr

theorem set_var_loop_none (env : Env) (name value : CStr) :
    ∀ (st : VarStore), set_var_loop name value st = none →
      name ∉ st.map Prod.fst
        ∧ ∀ v, get_var env (st ++ [(name, v)]) name = some v := by
  intro st
  induction st with
  | nil => intro _; simp [get_var]
  | cons a rest ih =>
    intro h
    obtain ⟨n, v⟩ := a
    by_cases hn : n = name
    · simp [set_var_loop, hn] at h
    · simp only [set_var_loop, if_neg hn, Option.map_eq_none'] at h
      have := ih h
      refine ⟨?_, ?_⟩
      · simp only [List.map_cons, List.mem_cons, not_or]
        exact ⟨fun e => hn e.symm, this.1⟩
      · intro w
        simp only [List.cons_append, get_var, if_neg hn]
        exact this.2 w

theorem get_var_set_var (env : Env) (st : VarStore) (name value : CStr)
    (hroom : st.length < 200 ∨ name ∈ st.map Prod.fst) (hname : name.length ≤ 255) :
    get_var env (set_var st name value) name = some (value.take 255) := by
  unfold set_var
  cases hl : set_var_loop name value st with
  | some st1 => exact set_var_loop_some env name value st st1 hl
  | none =>
    have hnone := set_var_loop_none env name value st hl
    have hlt : st.length < MAX_VARS := by
      rcases hroom with h | h
      · exact h
      · exact absurd h hnone.1
    simp only [if_pos hlt]
    have hn : strncpy name (ARGLEN - 1) = name := List.take_of_length_le hname
    rw [hn]
    exact hnone.2 _

theorem strchr_append (c : Char) (rest : CStr) :
    ∀ name : CStr, c ∉ name → strchr c (name ++ c :: rest) = some name.length := by
  intro name
  induction name with
  | nil => intro _; simp [strchr]
  | cons d r ih =>
    intro h
    have hd : d ≠ c := fun e => h (by simp [e])
    have hr : c ∉ r := fun e => h (List.mem_cons_of_mem _ e)
    simp [strchr, hd, ih hr]

theorem if_scan_no_space (line : CStr) (h : ' ' ∉ line) : if_scan line = none := by
  have hp : line.dropWhile (fun c => decide (c = ' ')) = line := by
    cases line with
    | nil => rfl
    | cons a r =>
      have ha : a ≠ ' ' := fun e => h (by simp [e])
      simp [List.dropWhile_cons, ha]
  have hne : line.take 3 ≠ "if ".toList := by
    intro e
    apply h
    have hm : ' ' ∈ line.take 3 := by rw [e]; decide
    exact List.mem_of_mem_take hm
  unfold if_scan
  simp only [hp, if_pos hne]

theorem tokenize_single_word (st : VarStore) (env : Env) (line : CStr) (hne : line ≠ [])
    (hlen : line.length ≤ 255) (hplain : ∀ c ∈ line, c ≠ '$' ∧ c ≠ ' ' ∧ c ≠ '\t') :
    tokenize st env line = some [line] := by
  have htake : line.take (MAX_LEN - 1) = line :=
    List.take_of_length_le (by simp only [MAX_LEN]; omega)
  have hnd : ∀ x ∈ line, ¬ is_delim x = true := by
    intro x hx
    have := hplain x hx
    simp [is_delim, this.2.1, this.2.2]
  have hruns : word_runs line = [line] := by
    rw [word_runs, List.splitOnP_eq_single is_delim _ hnd]
    simp [hne]
  have hd : '$' ∉ line := fun h => (hplain _ h).1 rfl
  rw [tokenize_eq_runs, htake, hruns]
  simp only [List.cons_ne_nil, if_false, MAXARGS, List.take_succ_cons, List.take_nil,
    List.map_cons, List.map_nil, expand_plain st env line hd]
  rw [List.take_of_length_le (by simp only [ARGLEN]; omega)]

theorem process_assignment (env : Env) (run : List CStr → ChildEnd) (sh : Shell)
    (name value : CStr) (hne : name ≠ [])
    (hname : ∀ c ∈ name, is_name_char c = true)
    (hval : ∀ c ∈ value, c ≠ '$' ∧ c ≠ ' ' ∧ c ≠ '\t')
    (hlen : (name ++ "=".toList ++ value).length ≤ 255) :
    process_cmdline env run sh (name ++ "=".toList ++ value)
      = (⟨sh.history, set_var sh.vars name value⟩, LineOutcome.assigned name value) := by
  have hline : name ++ "=".toList ++ value = name ++ '=' :: value := by simp
  have hnc : ∀ c ∈ name, c ≠ '$' ∧ c ≠ ' ' ∧ c ≠ '\t' ∧ c ≠ '=' := by
    intro c hc
    have h := hname c hc
    refine ⟨?_, ?_, ?_, ?_⟩ <;> (intro e; subst e; revert h; decide)
  have hplain : ∀ c ∈ name ++ '=' :: value, c ≠ '$' ∧ c ≠ ' ' ∧ c ≠ '\t' := by
    intro c hc
    rcases List.mem_append.mp hc with h | h
    · exact ⟨(hnc c h).1, (hnc c h).2.1, (hnc c h).2.2.1⟩
    · rcases List.mem_cons.mp h with h1 | h1
      · subst h1; decide
      · exact hval c h1
  have hnosp : ' ' ∉ name ++ '=' :: value := fun h => (hplain _ h).2.1 rfl
  have hlne : name ++ '=' :: value ≠ [] := by simp
  have hl : (name ++ '=' :: value).length ≤ 255 := by rw [← hline]; exact hlen
  have hvlen : value.length ≤ 255 := by
    simp only [List.length_append, List.length_cons] at hl; omega
  have heq : strchr '=' (name ++ '=' :: value) = some name.length :=
    strchr_append '=' value name (fun h => (hnc _ h).2.2.2 rfl)
  have hnl : name.length ≠ 0 := fun h => hne (List.length_eq_zero.mp h)
  rw [hline]
  unfold process_cmdline handle_if_else
  simp only [if_scan_no_space _ hnosp, tokenize_single_word sh.vars env _ hlne hl hplain,
    is_assignment_token, heq, Option.getD_some, strncpy]
  have hvlen1 : value.length ≤ ARGLEN - 1 := hvlen
  simp [hnl, List.take_of_length_le hvlen1, hvlen1]

set_option maxRecDepth 100000 in
/-- C3, the claim as stated fails twice.  With a full store (200 variables) the assignment
`X=1` is dropped by `set_var`, so `$X` still expands to the empty string; and for a name that
is not made of letters, digits and underscores, `a-b=1` is stored but `$a-b` reads the
variable `a` and expands to `-b`. -/
theorem assignment_lost_counterexample :
    full_store.length = 200
      ∧ (main_iteration emptyEnv run_true_only ⟨[], full_store⟩ "X=1".toList).2
          = LineOutcome.assigned "X".toList "1".toList
      ∧ expand_token_inplace
            (main_iteration emptyEnv run_true_only ⟨[], full_store⟩ "X=1".toList).1.vars
            emptyEnv "$X".toList = []
      ∧ (main_iteration emptyEnv run_true_only ⟨[], []⟩ "a-b=1".toList).2
          = LineOutcome.assigned "a-b".toList "1".toList
      ∧ expand_token_inplace
            (main_iteration emptyEnv run_true_only ⟨[], []⟩ "a-b=1".toList).1.vars
            emptyEnv "$a-b".toList = "-b".toList := by
  decide

/-- C3, amended.  For every prior state of the shell in which the store already holds NAME or
holds fewer than 200 variables, and every environment: after the single-token line
`NAME=VALUE` is processed (NAME non-empty and made of letters, digits and underscores, VALUE
without `$`, space or tab, the token at most 255 characters) the call `set_var(NAME, VALUE)`
has run and a later token `$NAME` expands to VALUE. -/
theorem assignment_then_expansion (env : Env) (run : List CStr → ChildEnd) (sh : Shell)
    (name value : CStr) (hne : name ≠ [])
    (hname : ∀ c ∈ name, c = '_' ∨ c.isAlphanum = true)
    (hval : ∀ c ∈ value, c ≠ '$' ∧ c ≠ ' ' ∧ c ≠ '\t')
    (hlen : (name ++ "=".toList ++ value).length ≤ 255)
    (hroom : sh.vars.length < 200 ∨ name ∈ sh.vars.map Prod.fst) :
    (main_iteration env run sh (name ++ "=".toList ++ value)).2
        = LineOutcome.assigned name value
      ∧ (main_iteration env run sh (name ++ "=".toList ++ value)).1.vars
        = set_var sh.vars name value
      ∧ expand_token_inplace (main_iteration env run sh (name ++ "=".toList ++ value)).1.vars
          env ("$".toList ++ name) = value := by
  have hch : ∀ c ∈ name, is_name_char c = true := by
    intro c hc
    rcases hname c hc with h | h <;> simp [is_name_char, h]
  have hl : (name ++ '=' :: value).length ≤ 255 := by
    have : name ++ "=".toList ++ value = name ++ '=' :: value := by simp
    rw [← this]; exact hlen
  have hnlen : name.length ≤ 255 := by
    simp only [List.length_append, List.length_cons] at hl; omega
  have hvlen : value.length ≤ 255 := by
    simp only [List.length_append, List.length_cons] at hl; omega
  have hmain : main_iteration env run sh (name ++ "=".toList ++ value)
      = (⟨internal_history_add sh.history (name ++ "=".toList ++ value),
            set_var sh.vars name value⟩, LineOutcome.assigned name value) := by
    cases name with
    | nil => exact absurd rfl hne
    | cons a r =>
      have ha : a ≠ '!' := by
        intro e
        have := hch a (List.mem_cons_self _ _)
        subst e
        revert this
        decide
      have hp := process_assignment env run
        ⟨internal_history_add sh.history (a :: r ++ "=".toList ++ value), sh.vars⟩
        (a :: r) value hne hch hval hlen
      have hcons : a :: r ++ "=".toList ++ value = a :: (r ++ "=".toList ++ value) := rfl
      rw [hcons] at hp ⊢
      simp only [main_iteration, ha, false_and, if_false]
      exact hp
  rw [hmain]
  refine ⟨rfl, rfl, ?_⟩
  have e1 : "$".toList ++ name = '$' :: name := rfl
  rw [e1, expand_dollar_name _ env name hne hch hnlen,
    get_var_set_var env sh.vars name value hroom hnlen]
  simp only [Option.getD_some, List.take_take]
  exact List.take_of_length_le (by simp only [ARGLEN]; omega)

/-- C3 amended, at the line `NAME=hello` with a different value for `NAME` in the
environment and another variable in the store. -/
theorem assignment_then_expansion_witness :
    (main_iteration (fun n => if n = "NAME".toList then some "env".toList else none)
          run_true_only ⟨[], [("A".toList, "1".toList)]⟩
          ("NAME".toList ++ "=".toList ++ "hello".toList)).2
        = LineOutcome.assigned "NAME".toList "hello".toList
      ∧ (main_iteration (fun n => if n = "NAME".toList then some "env".toList else none)
          run_true_only ⟨[], [("A".toList, "1".toList)]⟩
          ("NAME".toList ++ "=".toList ++ "hello".toList)).1.vars
        = set_var [("A".toList, "1".toList)] "NAME".toList "hello".toList
      ∧ expand_token_inplace
          (main_iteration (fun n => if n = "NAME".toList then some "env".toList else none)
            run_true_only ⟨[], [("A".toList, "1".toList)]⟩
            ("NAME".toList ++ "=".toList ++ "hello".toList)).1.vars
          (fun n => if n = "NAME".toList then some "env".toList else none)
          ("$".toList ++ "NAME".toList) = "hello".toList :=
  assignment_then_expansion (fun n => if n = "NAME".toList then some "env".toList else none)
    run_true_only ⟨[], [("A".toList, "1".toList)]⟩ "NAME".toList "hello".toList
    (by decide) (by decide) (by decide) (by decide) (by decide)

end MyShell
